import Mathlib

/-!
Verification of the monotone-chain convex hull implementation in
`convex_hull.py`.  Points are modelled as pairs of rationals, the float
coercion of the source being treated as the identity on representable
values.  All definitions follow the Python source line by line.
-/

namespace CH

/-- A point is a pair of coordinates, as in the source. -/
abbrev Point : Type := ℚ × ℚ

/-- The turn test from the source: `(a[0]-o[0])*(b[1]-o[1]) - (a[1]-o[1])*(b[0]-o[0])`. -/
def _cross (o a b : Point) : ℚ :=
  (a.1 - o.1) * (b.2 - o.2) - (a.2 - o.2) * (b.1 - o.1)

/-- Twice the signed area of a polygon (shoelace formula), as in the source:
returns 0 for fewer than 3 vertices, otherwise sums `x1*y2 - y1*x2` over
consecutive pairs with wraparound. -/
def _polygon_area2 (poly : List Point) : ℚ :=
  if poly.length < 3 then 0
  else ((poly.zip (poly.rotate 1)).map (fun pq => pq.1.1 * pq.2.2 - pq.1.2 * pq.2.1)).sum

/-- Strict lexicographic order on points, matching Python tuple `<`. -/
def lexLt (p q : Point) : Prop :=
  p.1 < q.1 ∨ (p.1 = q.1 ∧ p.2 < q.2)

/-- Weak lexicographic order on points, matching Python tuple `<=`. -/
def lexLe (p q : Point) : Prop :=
  p.1 < q.1 ∨ (p.1 = q.1 ∧ p.2 ≤ q.2)

instance (p q : Point) : Decidable (lexLt p q) := by
  unfold lexLt; infer_instance

instance (p q : Point) : Decidable (lexLe p q) := by
  unfold lexLe; infer_instance

/-- `sorted(set(...))` from the source: deduplicate, then sort by (x, y).
Sorting distinct elements by the total order `lexLe` produces the unique
ascending arrangement, exactly as Python's `sorted` does on tuples. -/
def sortedUniq (pts : List Point) : List Point :=
  (pts.dedup).insertionSort lexLe

/-- The pop condition of the chain loops: in `include_collinear` mode pop only
on strict right turns (`turn < -eps`), otherwise pop on right turns or
collinear (`turn <= eps`). -/
def popTest (ic : Bool) (eps t : ℚ) : Bool :=
  if ic then decide (t < -eps) else decide (t ≤ eps)

/-- The inner `while` loop of the source: with the stack stored top-first,
pop the top while there are at least two elements and the turn formed by the
last two stack points and `p` triggers the pop condition. -/
def popWhile (ic : Bool) (eps : ℚ) (p : Point) : List Point → List Point
  | a :: b :: rest =>
    if popTest ic eps (_cross b a p) then popWhile ic eps p (b :: rest) else a :: b :: rest
  | s => s

/-- One iteration of the chain-building `for` loop: pop, then append `p`. -/
def chainStep (ic : Bool) (eps : ℚ) (st : List Point) (p : Point) : List Point :=
  p :: popWhile ic eps p st

/-- The chain after scanning `pts`, stored in reverse (most recent first). -/
def chainRev (ic : Bool) (eps : ℚ) (pts : List Point) : List Point :=
  pts.foldl (chainStep ic eps) []

/-- The chain in scan order, as the Python list `lower` (resp. `upper`). -/
def buildChain (ic : Bool) (eps : ℚ) (pts : List Point) : List Point :=
  (chainRev ic eps pts).reverse

/-- `lower[:-1] + upper[:-1]` from the source, where `lower` is the chain of
the sorted unique points and `upper` the chain of their reversal. -/
def candidateHull (ic : Bool) (eps : ℚ) (uniq : List Point) : List Point :=
  (buildChain ic eps uniq).dropLast ++ (buildChain ic eps uniq.reverse).dropLast

/-- The default tolerance `1e-12` of the source. -/
def epsDefault : ℚ := 1 / 1000000000000

/-- Python's `abs` on rationals, written so that it evaluates by kernel
reduction; `ratAbs_eq_abs` identifies it with the standard absolute value. -/
def ratAbs (x : ℚ) : ℚ := if x < 0 then -x else x

/-- The convex hull function, following the Python source step by step. -/
def convex_hull (points : List Point) (include_collinear : Bool := false)
    (eps : ℚ := epsDefault) : List Point :=
  let uniq := sortedUniq points
  if uniq.length ≤ 1 then uniq
  else
    let hull := candidateHull include_collinear eps uniq
    if include_collinear = true ∧ ratAbs (_polygon_area2 hull) ≤ eps then uniq
    else if hull.length = 0 then
      if include_collinear then uniq
      else if uniq.headI ≠ uniq.getLastD (0, 0) then [uniq.headI, uniq.getLastD (0, 0)]
      else [uniq.headI]
    else hull

/-- Containment test for a convex counterclockwise polygon: `p` is inside or
on the boundary when it is weakly to the left of every directed edge,
wrapping around. -/
def onOrInside (h : List Point) (p : Point) : Bool :=
  (h.zip (h.rotate 1)).all (fun e => decide (0 ≤ _cross e.1 e.2 p))

/-- Strict-interior test for a convex counterclockwise polygon: `p` is
strictly to the left of every directed edge, wrapping around. -/
def strictlyInside (h : List Point) (p : Point) : Bool :=
  (h.zip (h.rotate 1)).all (fun e => decide (0 < _cross e.1 e.2 p))

/-- All points of a list lie on one common line, in parametric form. -/
def OnCommonLine (pts : List Point) : Prop :=
  ∃ P D : Point, ∀ p ∈ pts, ∃ t : ℚ, p = (P.1 + t * D.1, P.2 + t * D.2)

/-- Consecutive-triple condition on a reversed stack: for a stack with the
most recent point first, every three consecutive entries `c :: b :: a`
satisfy `R a b c` in scan order. -/
def TurnsRev (R : Point → Point → Point → Prop) : List Point → Prop
  | c :: b :: a :: rest => R a b c ∧ TurnsRev R (b :: a :: rest)
  | _ => True

/-- Sum of `x1*y2 - y1*x2` over consecutive pairs, without wraparound. -/
def segSum : List Point → ℚ
  | a :: b :: r => (a.1 * b.2 - a.2 * b.1) + segSum (b :: r)
  | _ => 0

/-- Fan decomposition sum: turns of consecutive pairs as seen from `o`. -/
def fanSum (o : Point) : List Point → ℚ
  | a :: b :: r => _cross o a b + fanSum o (b :: r)
  | _ => 0

/-- Pointwise negation of a point; it reverses the lexicographic order and
preserves the turn test, which transfers ascending-chain results to the
descending scan of the upper chain. -/
def negP (p : Point) : Point := (-p.1, -p.2)

/-- Projection of `x - v` onto the direction `w - v`; together with the turn
`_cross v w x` it forms rotated coordinates used to reason about a point on
the boundary line of a half-plane containing a polygon. -/
def tproj (v w x : Point) : ℚ :=
  (w.1 - v.1) * (x.1 - v.1) + (w.2 - v.2) * (x.2 - v.2)


section OrderLemmas

theorem ratAbs_eq_abs (x : ℚ) : ratAbs x = |x| := by
  unfold ratAbs
  by_cases h : x < 0
  · rw [if_pos h, abs_of_neg h]
  · rw [if_neg h, abs_of_nonneg (le_of_not_lt h)]

theorem lexLe_refl (p : Point) : lexLe p p := Or.inr ⟨rfl, le_refl _⟩

theorem lexLt_irrefl (p : Point) : ¬ lexLt p p := by
  rintro (h | ⟨-, h⟩) <;> exact lt_irrefl _ h

theorem lexLt_trans {p q r : Point} (h1 : lexLt p q) (h2 : lexLt q r) : lexLt p r := by
  rcases h1 with h1 | ⟨e1, h1⟩ <;> rcases h2 with h2 | ⟨e2, h2⟩
  · exact Or.inl (h1.trans h2)
  · exact Or.inl (e2 ▸ h1)
  · exact Or.inl (e1 ▸ h2)
  · exact Or.inr ⟨e1.trans e2, h1.trans h2⟩

theorem lexLe_of_lexLt {p q : Point} (h : lexLt p q) : lexLe p q := by
  rcases h with h | ⟨e, h⟩
  · exact Or.inl h
  · exact Or.inr ⟨e, le_of_lt h⟩

theorem lexLt_of_lexLe_of_ne {p q : Point} (h : lexLe p q) (hne : p ≠ q) : lexLt p q := by
  rcases h with h | ⟨e, h⟩
  · exact Or.inl h
  · rcases lt_or_eq_of_le h with h' | h'
    · exact Or.inr ⟨e, h'⟩
    · exact absurd (Prod.ext e h') hne

theorem lexLt_asymm {p q : Point} (h : lexLt p q) : ¬ lexLt q p := by
  intro h'
  exact lexLt_irrefl p (lexLt_trans h h')

theorem lexLe_total (p q : Point) : lexLe p q ∨ lexLe q p := by
  rcases lt_trichotomy p.1 q.1 with h | h | h
  · exact Or.inl (Or.inl h)
  · rcases le_total p.2 q.2 with h2 | h2
    · exact Or.inl (Or.inr ⟨h, h2⟩)
    · exact Or.inr (Or.inr ⟨h.symm, h2⟩)
  · exact Or.inr (Or.inl h)

theorem lexLt_x_le {p q : Point} (h : lexLt p q) : p.1 ≤ q.1 := by
  rcases h with h | ⟨e, -⟩
  · exact le_of_lt h
  · exact le_of_eq e

theorem lexLe_x_le {p q : Point} (h : lexLe p q) : p.1 ≤ q.1 := by
  rcases h with h | ⟨e, -⟩
  · exact le_of_lt h
  · exact le_of_eq e

instance : IsTotal Point lexLe := ⟨lexLe_total⟩

instance : IsTrans Point lexLe :=
  ⟨fun a b c hab hbc => by
    rcases hab with h1 | ⟨e1, h1⟩ <;> rcases hbc with h2 | ⟨e2, h2⟩
    · exact Or.inl (h1.trans h2)
    · exact Or.inl (e2 ▸ h1)
    · exact Or.inl (e1 ▸ h2)
    · exact Or.inr ⟨e1.trans e2, h1.trans h2⟩⟩

end OrderLemmas

section SortedUniqLemmas

theorem mem_sortedUniq {pts : List Point} {q : Point} :
    q ∈ sortedUniq pts ↔ q ∈ pts := by
  unfold sortedUniq
  rw [List.mem_insertionSort, List.mem_dedup]

theorem nodup_sortedUniq (pts : List Point) : (sortedUniq pts).Nodup := by
  unfold sortedUniq
  exact ((pts.dedup.perm_insertionSort lexLe).nodup_iff).mpr pts.nodup_dedup

theorem pairwise_lexLe_sortedUniq (pts : List Point) :
    (sortedUniq pts).Pairwise lexLe :=
  List.sorted_insertionSort lexLe pts.dedup

theorem pairwise_lexLt_sortedUniq (pts : List Point) :
    (sortedUniq pts).Pairwise lexLt := by
  have h1 := pairwise_lexLe_sortedUniq pts
  have h2 := (nodup_sortedUniq pts)
  exact (h1.and h2).imp (fun h => lexLt_of_lexLe_of_ne h.1 h.2)

theorem sortedUniq_of_sorted {l : List Point} (h1 : List.Pairwise lexLt l) :
    sortedUniq l = l := by
  unfold sortedUniq
  have hnd : l.Nodup := h1.imp (fun {a b} hab => by
    intro hc; subst hc; exact absurd hab (by
      intro h; rcases h with h | ⟨h, h2⟩
      · exact lt_irrefl _ h
      · exact lt_irrefl _ h2))
  rw [List.Nodup.dedup hnd]
  exact List.Sorted.insertionSort_eq (h1.imp (fun {a b} hab => lexLe_of_lexLt hab))

end SortedUniqLemmas

section ChainStructure

theorem popWhile_suffix (ic : Bool) (eps : ℚ) (p : Point) :
    ∀ T : List Point, popWhile ic eps p T <:+ T := by
  intro T
  induction T with
  | nil => exact List.suffix_rfl
  | cons a T ih =>
    cases T with
    | nil => exact List.suffix_rfl
    | cons b rest =>
      rw [popWhile]
      by_cases h : popTest ic eps (_cross b a p) = true
      · rw [if_pos h]
        exact (ih).trans (List.suffix_cons a (b :: rest))
      · rw [if_neg h]

theorem popWhile_ne_nil (ic : Bool) (eps : ℚ) (p : Point) :
    ∀ T : List Point, T ≠ [] → popWhile ic eps p T ≠ [] := by
  intro T
  induction T with
  | nil => exact fun h => absurd rfl h
  | cons a T ih =>
    intro _
    cases T with
    | nil => simp [popWhile]
    | cons b rest =>
      rw [popWhile]
      by_cases h : popTest ic eps (_cross b a p) = true
      · rw [if_pos h]
        exact ih (by simp)
      · rw [if_neg h]
        simp

theorem popWhile_getLast? (ic : Bool) (eps : ℚ) (p : Point) (T : List Point)
    (hT : T ≠ []) :
    (popWhile ic eps p T).getLast? = T.getLast? := by
  obtain ⟨pre, hpre⟩ := popWhile_suffix ic eps p T
  have hK : popWhile ic eps p T ≠ [] := popWhile_ne_nil ic eps p T hT
  conv_rhs => rw [← hpre]
  rw [List.getLast?_append]
  rw [List.getLast?_eq_getLast _ hK]
  rfl

theorem chainRev_append_singleton (ic : Bool) (eps : ℚ) (done : List Point) (p : Point) :
    chainRev ic eps (done ++ [p]) = chainStep ic eps (chainRev ic eps done) p := by
  unfold chainRev
  rw [List.foldl_append]
  rfl

theorem chainRev_ne_nil (ic : Bool) (eps : ℚ) (done : List Point) (h : done ≠ []) :
    chainRev ic eps done ≠ [] := by
  induction done using List.reverseRecOn with
  | nil => exact absurd rfl h
  | append_singleton done p ih =>
    rw [chainRev_append_singleton]
    simp [chainStep]

theorem chainRev_head (ic : Bool) (eps : ℚ) (done : List Point) (p : Point) :
    (chainRev ic eps (done ++ [p])).head? = some p := by
  rw [chainRev_append_singleton]
  rfl

theorem chainRev_getLast? (ic : Bool) (eps : ℚ) (done : List Point) (h : done ≠ []) :
    (chainRev ic eps done).getLast? = done.head? := by
  induction done using List.reverseRecOn with
  | nil => exact absurd rfl h
  | append_singleton done p ih =>
    rcases List.eq_nil_or_concat' done with hd | ⟨done', q, rfl⟩
    · subst hd
      simp [chainRev, chainStep, popWhile]
    · have hne : done' ++ [q] ≠ [] := by simp
      have hch : chainRev ic eps (done' ++ [q]) ≠ [] := chainRev_ne_nil ic eps _ hne
      have step : chainRev ic eps ((done' ++ [q]) ++ [p]) =
          p :: popWhile ic eps p (chainRev ic eps (done' ++ [q])) := by
        rw [chainRev_append_singleton]; rfl
      have hpw : popWhile ic eps p (chainRev ic eps (done' ++ [q])) ≠ [] :=
        popWhile_ne_nil ic eps p _ hch
      obtain ⟨x, K, hK⟩ := List.exists_cons_of_ne_nil hpw
      rw [step, hK, List.getLast?_cons_cons, ← hK,
        popWhile_getLast? ic eps p _ hch, ih hne]
      rw [List.head?_append, List.head?_append]
      rcases done' with - | ⟨d, ds⟩ <;> simp

theorem chainRev_length_ge_two (ic : Bool) (eps : ℚ) (done : List Point)
    (h : 2 ≤ done.length) : 2 ≤ (chainRev ic eps done).length := by
  induction done using List.reverseRecOn with
  | nil => simp at h
  | append_singleton done p ih =>
    rcases List.eq_nil_or_concat' done with hd | ⟨done', q, rfl⟩
    · subst hd; simp at h
    · have hne : done' ++ [q] ≠ [] := by simp
      have hch : chainRev ic eps (done' ++ [q]) ≠ [] := chainRev_ne_nil ic eps _ hne
      have hpw : popWhile ic eps p (chainRev ic eps (done' ++ [q])) ≠ [] :=
        popWhile_ne_nil ic eps p _ hch
      rw [chainRev_append_singleton]
      show 2 ≤ (p :: popWhile ic eps p (chainRev ic eps (done' ++ [q]))).length
      have := List.length_pos.mpr hpw
      simp only [List.length_cons]
      omega

theorem chainRev_reverse_sublist (ic : Bool) (eps : ℚ) (done : List Point) :
    List.Sublist (chainRev ic eps done).reverse done := by
  induction done using List.reverseRecOn with
  | nil => simp [chainRev]
  | append_singleton done p ih =>
    rw [chainRev_append_singleton]
    show List.Sublist (p :: popWhile ic eps p (chainRev ic eps done)).reverse (done ++ [p])
    rw [List.reverse_cons]
    refine List.Sublist.append ?_ (List.Sublist.refl [p])
    have hsuf := popWhile_suffix ic eps p (chainRev ic eps done)
    exact (List.reverse_sublist.mpr hsuf.sublist).trans ih

end ChainStructure

section BuildChainFacts

theorem buildChain_head (ic : Bool) (eps : ℚ) (done : List Point) (h : done ≠ []) :
    (buildChain ic eps done).head? = done.head? := by
  unfold buildChain
  rw [List.head?_reverse]
  exact chainRev_getLast? ic eps done h

theorem buildChain_getLast (ic : Bool) (eps : ℚ) (done : List Point) (p : Point) :
    (buildChain ic eps (done ++ [p])).getLast? = some p := by
  unfold buildChain
  rw [List.getLast?_reverse]
  exact chainRev_head ic eps done p

theorem buildChain_length_ge_two (ic : Bool) (eps : ℚ) (done : List Point)
    (h : 2 ≤ done.length) : 2 ≤ (buildChain ic eps done).length := by
  unfold buildChain
  rw [List.length_reverse]
  exact chainRev_length_ge_two ic eps done h

theorem buildChain_sublist (ic : Bool) (eps : ℚ) (done : List Point) :
    List.Sublist (buildChain ic eps done) done := by
  unfold buildChain
  exact chainRev_reverse_sublist ic eps done

theorem buildChain_ne_nil (ic : Bool) (eps : ℚ) (done : List Point) (h : done ≠ []) :
    buildChain ic eps done ≠ [] := by
  unfold buildChain
  simp only [ne_eq, List.reverse_eq_nil_iff]
  exact chainRev_ne_nil ic eps done h

end BuildChainFacts

section HullBranches

theorem convex_hull_def (pts : List Point) (ic : Bool) (eps : ℚ) :
    convex_hull pts ic eps =
      if (sortedUniq pts).length ≤ 1 then sortedUniq pts
      else if ic = true ∧ ratAbs (_polygon_area2 (candidateHull ic eps (sortedUniq pts))) ≤ eps then
        sortedUniq pts
      else if (candidateHull ic eps (sortedUniq pts)).length = 0 then
        if ic then sortedUniq pts
        else if (sortedUniq pts).headI ≠ (sortedUniq pts).getLastD (0, 0) then
          [(sortedUniq pts).headI, (sortedUniq pts).getLastD (0, 0)]
        else [(sortedUniq pts).headI]
      else candidateHull ic eps (sortedUniq pts) := rfl

theorem sortedUniq_ne_nil {pts : List Point} (h : pts ≠ []) : sortedUniq pts ≠ [] := by
  obtain ⟨x, t, rfl⟩ := List.exists_cons_of_ne_nil h
  intro hc
  have : x ∈ sortedUniq (x :: t) := mem_sortedUniq.mpr (List.mem_cons_self x t)
  rw [hc] at this
  exact List.not_mem_nil x this

theorem sortedUniq_head_min (pts : List Point) {m : Point}
    (hm : (sortedUniq pts).head? = some m) : ∀ q ∈ sortedUniq pts, lexLe m q := by
  intro q hq
  obtain ⟨u, t, hu⟩ := List.exists_cons_of_ne_nil (l := sortedUniq pts)
    (by intro hc; rw [hc] at hm; exact Option.noConfusion hm)
  rw [hu] at hm hq
  have hum : u = m := by simpa using hm
  subst hum
  have hp := pairwise_lexLt_sortedUniq pts
  rw [hu] at hp
  rcases List.mem_cons.mp hq with rfl | hq'
  · exact lexLe_refl q
  · exact lexLe_of_lexLt (List.rel_of_pairwise_cons hp hq')

theorem sortedUniq_getLast_max (pts : List Point) {M : Point}
    (hM : (sortedUniq pts).getLast? = some M) : ∀ q ∈ sortedUniq pts, lexLe q M := by
  intro q hq
  have hp := pairwise_lexLt_sortedUniq pts
  have hrev : (sortedUniq pts).reverse.Pairwise (fun a b => lexLt b a) :=
    List.pairwise_reverse.mpr hp
  have hm' : (sortedUniq pts).reverse.head? = some M := by
    rw [List.head?_reverse]; exact hM
  obtain ⟨u, t, hu⟩ := List.exists_cons_of_ne_nil (l := (sortedUniq pts).reverse)
    (by intro hc; rw [hc] at hm'; exact Option.noConfusion hm')
  rw [hu] at hm'
  have hum : u = M := by simpa using hm'
  subst hum
  have hq' : q ∈ (sortedUniq pts).reverse := List.mem_reverse.mpr hq
  rw [hu] at hq' hrev
  rcases List.mem_cons.mp hq' with rfl | hq''
  · exact lexLe_refl q
  · exact lexLe_of_lexLt (List.rel_of_pairwise_cons hrev hq'')

theorem candidateHull_nil (ic : Bool) (eps : ℚ) : candidateHull ic eps [] = [] := rfl

theorem buildChain_singleton (ic : Bool) (eps : ℚ) (u : Point) :
    buildChain ic eps [u] = [u] := rfl

theorem candidateHull_singleton (ic : Bool) (eps : ℚ) (u : Point) :
    candidateHull ic eps [u] = [] := rfl

theorem candidateHull_ne_nil (ic : Bool) (eps : ℚ) {uniq : List Point}
    (h : 2 ≤ uniq.length) : candidateHull ic eps uniq ≠ [] := by
  unfold candidateHull
  have h1 : 2 ≤ (buildChain ic eps uniq).length := buildChain_length_ge_two ic eps uniq h
  intro hc
  rw [List.append_eq_nil] at hc
  have := congrArg List.length hc.1
  rw [List.length_dropLast] at this
  simp at this
  omega

end HullBranches

section Claim7

/-- Claim C7: when the coerced, deduplicated input has at most one distinct
point, `convex_hull` returns that deduplicated sequence unchanged in both
modes; in particular the empty input yields the empty list and an input whose
points all coincide yields the single point. -/
theorem claim7_degenerate_short_circuit (pts : List Point) (ic : Bool) (eps : ℚ)
    (h : (sortedUniq pts).length ≤ 1) :
    convex_hull pts ic eps = sortedUniq pts := by
  rw [convex_hull_def, if_pos h]

theorem claim7_witness :
    ((sortedUniq ([] : List Point)).length ≤ 1 ∧ convex_hull [] = [] ∧ sortedUniq [] = []) ∧
      ((sortedUniq [((2 : ℚ), (3 : ℚ))]).length ≤ 1 ∧
        convex_hull [((2 : ℚ), (3 : ℚ))] = [((2 : ℚ), (3 : ℚ))]) := by
  refine ⟨⟨by decide, ?_, by decide⟩, ⟨by decide, ?_⟩⟩
  · rw [claim7_degenerate_short_circuit [] false epsDefault (by decide)]
    decide
  · rw [claim7_degenerate_short_circuit [((2 : ℚ), (3 : ℚ))] false epsDefault (by decide)]
    decide

end Claim7

section Claim4

/-- Claim C4: with `include_collinear = true` (and a nonnegative tolerance),
the candidate hull obtained by stitching the two chains is replaced by all
unique points in sorted order exactly when the magnitude of its shoelace
signed area is at most `eps`; otherwise the candidate hull is returned. -/
theorem claim4_all_collinear_correction (pts : List Point) (eps : ℚ) (heps : 0 ≤ eps) :
    convex_hull pts true eps =
      if |_polygon_area2 (candidateHull true eps (sortedUniq pts))| ≤ eps then sortedUniq pts
      else candidateHull true eps (sortedUniq pts) := by
  rw [convex_hull_def]
  simp only [← ratAbs_eq_abs]
  by_cases h1 : (sortedUniq pts).length ≤ 1
  · rw [if_pos h1]
    interval_cases h : (sortedUniq pts).length
    · have hnil : sortedUniq pts = [] := List.length_eq_zero.mp h
      rw [hnil, candidateHull_nil]
      have : _polygon_area2 ([] : List Point) = 0 := rfl
      rw [this]
      rw [if_pos (by simpa using heps)]
    · obtain ⟨u, hu⟩ := List.length_eq_one.mp h
      rw [hu, candidateHull_singleton]
      have : _polygon_area2 ([] : List Point) = 0 := rfl
      rw [this]
      rw [if_pos (by simpa [ratAbs] using heps)]
  · rw [if_neg h1]
    by_cases h2 : ratAbs (_polygon_area2 (candidateHull true eps (sortedUniq pts))) ≤ eps
    · rw [if_pos ⟨trivial, h2⟩, if_pos h2]
    · rw [if_neg (by simpa using h2), if_neg h2]
      have hne : candidateHull true eps (sortedUniq pts) ≠ [] :=
        candidateHull_ne_nil true eps (by omega)
      rw [if_neg (by simp [List.length_eq_zero, hne])]

theorem claim4_witness :
    (0 : ℚ) ≤ epsDefault ∧
      convex_hull [((0 : ℚ), (0 : ℚ)), (1, 1), (2, 2)] true epsDefault =
        if |_polygon_area2 (candidateHull true epsDefault
            (sortedUniq [((0 : ℚ), (0 : ℚ)), (1, 1), (2, 2)]))| ≤ epsDefault then
          sortedUniq [((0 : ℚ), (0 : ℚ)), (1, 1), (2, 2)]
        else candidateHull true epsDefault (sortedUniq [((0 : ℚ), (0 : ℚ)), (1, 1), (2, 2)]) :=
  ⟨by norm_num [epsDefault],
    claim4_all_collinear_correction [((0 : ℚ), (0 : ℚ)), (1, 1), (2, 2)] epsDefault
      (by norm_num [epsDefault])⟩

end Claim4

section Claim9

/-- Claim C9: for at least 2 distinct points, the lower and upper chains each
finish with at least 2 elements, so the stitched candidate hull is non-empty
and the empty-hull fallback branch of the source is unreachable. -/
theorem claim9_chains_long_enough (pts : List Point) (ic : Bool) (eps : ℚ)
    (h : 2 ≤ (sortedUniq pts).length) :
    2 ≤ (buildChain ic eps (sortedUniq pts)).length ∧
      2 ≤ (buildChain ic eps (sortedUniq pts).reverse).length ∧
      candidateHull ic eps (sortedUniq pts) ≠ [] := by
  refine ⟨buildChain_length_ge_two ic eps _ h, ?_, candidateHull_ne_nil ic eps h⟩
  exact buildChain_length_ge_two ic eps _ (by simpa using h)

theorem claim9_witness :
    2 ≤ (sortedUniq [((0 : ℚ), (0 : ℚ)), (1, 1)]).length ∧
      (2 ≤ (buildChain false epsDefault (sortedUniq [((0 : ℚ), (0 : ℚ)), (1, 1)])).length ∧
        2 ≤ (buildChain false epsDefault (sortedUniq [((0 : ℚ), (0 : ℚ)), (1, 1)]).reverse).length ∧
        candidateHull false epsDefault (sortedUniq [((0 : ℚ), (0 : ℚ)), (1, 1)]) ≠ []) :=
  ⟨by decide, claim9_chains_long_enough [((0 : ℚ), (0 : ℚ)), (1, 1)] false epsDefault (by decide)⟩

end Claim9

section Claim10

theorem head?_dropLast {l : List Point} (h : 2 ≤ l.length) :
    l.dropLast.head? = l.head? := by
  match l, h with
  | a :: b :: t, _ => simp

theorem convex_hull_head? (pts : List Point) (ic : Bool) (eps : ℚ)
    (hne : sortedUniq pts ≠ []) :
    (convex_hull pts ic eps).head? = (sortedUniq pts).head? := by
  obtain ⟨u, t, hu⟩ := List.exists_cons_of_ne_nil hne
  rw [convex_hull_def]
  by_cases h1 : (sortedUniq pts).length ≤ 1
  · rw [if_pos h1]
  · rw [if_neg h1]
    have h2 : 2 ≤ (sortedUniq pts).length := by omega
    by_cases harea : ic = true ∧
        ratAbs (_polygon_area2 (candidateHull ic eps (sortedUniq pts))) ≤ eps
    · rw [if_pos harea]
    · rw [if_neg harea]
      by_cases hlen : (candidateHull ic eps (sortedUniq pts)).length = 0
      · rw [if_pos hlen]
        by_cases hic : ic
        · rw [if_pos hic]
        · rw [if_neg hic]
          by_cases hnefb : (sortedUniq pts).headI ≠ (sortedUniq pts).getLastD (0, 0)
          · rw [if_pos hnefb]
            rw [hu]; rfl
          · rw [if_neg hnefb]
            rw [hu]; rfl
      · rw [if_neg hlen]
        unfold candidateHull
        have hl2 : 2 ≤ (buildChain ic eps (sortedUniq pts)).length :=
          buildChain_length_ge_two ic eps _ h2
        have hld : (buildChain ic eps (sortedUniq pts)).dropLast ≠ [] := by
          intro hc
          have := congrArg List.length hc
          rw [List.length_dropLast] at this
          simp at this
          omega
        rw [List.head?_append, head?_dropLast hl2,
          buildChain_head ic eps _ hne]
        rw [hu]
        rfl

theorem convex_hull_max_mem (pts : List Point) (ic : Bool) (eps : ℚ)
    (h2 : 2 ≤ (sortedUniq pts).length) {M : Point}
    (hM : (sortedUniq pts).getLast? = some M) :
    M ∈ convex_hull pts ic eps := by
  have hne : sortedUniq pts ≠ [] := by
    intro hc; rw [hc] at hM; exact Option.noConfusion hM
  have hMmem : M ∈ sortedUniq pts := List.mem_of_getLast?_eq_some hM
  rw [convex_hull_def]
  by_cases h1 : (sortedUniq pts).length ≤ 1
  · omega
  · rw [if_neg h1]
    by_cases harea : ic = true ∧
        ratAbs (_polygon_area2 (candidateHull ic eps (sortedUniq pts))) ≤ eps
    · rw [if_pos harea]; exact hMmem
    · rw [if_neg harea]
      by_cases hlen : (candidateHull ic eps (sortedUniq pts)).length = 0
      · rw [if_pos hlen]
        have hDM : (sortedUniq pts).getLastD (0, 0) = M := by
          rw [List.getLastD_eq_getLast?, hM]; rfl
        by_cases hic : ic
        · rw [if_pos hic]; exact hMmem
        · rw [if_neg hic]
          by_cases hnefb : (sortedUniq pts).headI ≠ (sortedUniq pts).getLastD (0, 0)
          · rw [if_pos hnefb, ← hDM]
            simp
          · rw [if_neg hnefb]
            push_neg at hnefb
            rw [← hDM, hnefb]
            simp
      · rw [if_neg hlen]
        unfold candidateHull
        have hrev : (sortedUniq pts).reverse ≠ [] := by
          simpa using hne
        have hu2 : 2 ≤ (buildChain ic eps (sortedUniq pts).reverse).length :=
          buildChain_length_ge_two ic eps _ (by simpa using h2)
        have hhd : (buildChain ic eps (sortedUniq pts).reverse).head? = some M := by
          rw [buildChain_head ic eps _ hrev, List.head?_reverse]
          exact hM
        refine List.mem_append_right _ ?_
        have := head?_dropLast hu2
        rw [hhd] at this
        rcases hd : (buildChain ic eps (sortedUniq pts).reverse).dropLast with - | ⟨x, xs⟩
        · rw [hd] at this; exact Option.noConfusion this
        · rw [hd] at this
          have hx : x = M := by simpa using this
          rw [hx]
          exact List.mem_cons_self M xs

/-- Claim C10: for a non-empty input, in both modes, the first element of the
output is the lexicographically smallest distinct point, while for at least 2
distinct points the lexicographically largest point also appears in the
output. -/
theorem claim10_extremes (pts : List Point) (ic : Bool) (eps : ℚ) (hne : pts ≠ []) :
    (∃ m, (convex_hull pts ic eps).head? = some m ∧ m ∈ pts ∧ ∀ q ∈ pts, lexLe m q) ∧
      (2 ≤ (sortedUniq pts).length →
        ∃ M ∈ convex_hull pts ic eps, M ∈ pts ∧ ∀ q ∈ pts, lexLe q M) := by
  have hsne : sortedUniq pts ≠ [] := sortedUniq_ne_nil hne
  obtain ⟨u, t, hu⟩ := List.exists_cons_of_ne_nil hsne
  constructor
  · refine ⟨u, ?_, ?_, ?_⟩
    · rw [convex_hull_head? pts ic eps hsne, hu]; rfl
    · exact mem_sortedUniq.mp (by rw [hu]; exact List.mem_cons_self u t)
    · intro q hq
      exact sortedUniq_head_min pts (by rw [hu]; rfl) q (mem_sortedUniq.mpr hq)
  · intro h2
    obtain ⟨M, hM⟩ : ∃ M, (sortedUniq pts).getLast? = some M := by
      rw [List.getLast?_eq_getLast _ hsne]; exact ⟨_, rfl⟩
    refine ⟨M, convex_hull_max_mem pts ic eps h2 hM, ?_, ?_⟩
    · exact mem_sortedUniq.mp (List.mem_of_getLast?_eq_some hM)
    · intro q hq
      exact sortedUniq_getLast_max pts hM q (mem_sortedUniq.mpr hq)

theorem claim10_witness :
    ([((1 : ℚ), (0 : ℚ)), (0, 0), (1, 1)] ≠ ([] : List Point)) ∧
      ((∃ m, (convex_hull [((1 : ℚ), (0 : ℚ)), (0, 0), (1, 1)] false epsDefault).head? = some m ∧
          m ∈ [((1 : ℚ), (0 : ℚ)), (0, 0), (1, 1)] ∧
          ∀ q ∈ [((1 : ℚ), (0 : ℚ)), (0, 0), (1, 1)], lexLe m q) ∧
        (2 ≤ (sortedUniq [((1 : ℚ), (0 : ℚ)), (0, 0), (1, 1)]).length →
          ∃ M ∈ convex_hull [((1 : ℚ), (0 : ℚ)), (0, 0), (1, 1)] false epsDefault,
            M ∈ [((1 : ℚ), (0 : ℚ)), (0, 0), (1, 1)] ∧
            ∀ q ∈ [((1 : ℚ), (0 : ℚ)), (0, 0), (1, 1)], lexLe q M)) :=
  ⟨by decide, claim10_extremes [((1 : ℚ), (0 : ℚ)), (0, 0), (1, 1)] false epsDefault (by decide)⟩

end Claim10

section AreaLemmas

theorem zip_shift_sum :
    ∀ (t : List Point) (a c : Point),
      (((a :: t).zip (t ++ [c])).map (fun pq => pq.1.1 * pq.2.2 - pq.1.2 * pq.2.1)).sum =
        segSum (a :: t) + (((a :: t).getLast (by simp)).1 * c.2 -
          ((a :: t).getLast (by simp)).2 * c.1) := by
  intro t
  induction t with
  | nil =>
    intro a c
    simp [segSum]
  | cons b t' ih =>
    intro a c
    have hgl : ((a :: b :: t').getLast (by simp)) = ((b :: t').getLast (by simp)) :=
      List.getLast_cons (by simp)
    have hstep : ((b :: t') ++ [c] : List Point) = b :: (t' ++ [c]) := by simp
    calc (((a :: b :: t').zip ((b :: t') ++ [c])).map
          (fun pq => pq.1.1 * pq.2.2 - pq.1.2 * pq.2.1)).sum
        = (a.1 * b.2 - a.2 * b.1) +
            (((b :: t').zip (t' ++ [c])).map
              (fun pq => pq.1.1 * pq.2.2 - pq.1.2 * pq.2.1)).sum := by
          rw [hstep]
          simp [List.zip_cons_cons]
      _ = (a.1 * b.2 - a.2 * b.1) + (segSum (b :: t') +
            (((b :: t').getLast (by simp)).1 * c.2 - ((b :: t').getLast (by simp)).2 * c.1)) := by
          rw [ih b c]
      _ = segSum (a :: b :: t') + (((a :: b :: t').getLast (by simp)).1 * c.2 -
            ((a :: b :: t').getLast (by simp)).2 * c.1) := by
          rw [hgl]
          show _ = ((a.1 * b.2 - a.2 * b.1) + segSum (b :: t')) + _
          ring

theorem cross_expand (o a b : Point) :
    _cross o a b = (a.1 * b.2 - a.2 * b.1) + (o.1 * a.2 - o.2 * a.1) -
      (o.1 * b.2 - o.2 * b.1) := by
  unfold _cross
  ring

theorem fanSum_eq_segSum (o : Point) :
    ∀ (t : List Point) (a : Point),
      fanSum o (a :: t) = segSum (a :: t) + (o.1 * a.2 - o.2 * a.1) -
        (o.1 * ((a :: t).getLast (by simp)).2 - o.2 * ((a :: t).getLast (by simp)).1) := by
  intro t
  induction t with
  | nil =>
    intro a
    simp [fanSum, segSum]
  | cons b t' ih =>
    intro a
    have hgl : ((a :: b :: t').getLast (by simp)) = ((b :: t').getLast (by simp)) :=
      List.getLast_cons (by simp)
    show _cross o a b + fanSum o (b :: t') = _
    rw [ih b, hgl, cross_expand]
    show _ = ((a.1 * b.2 - a.2 * b.1) + segSum (b :: t')) + _ - _
    ring

theorem polygon_area2_eq_fanSum (l : List Point) (h3 : 3 ≤ l.length) {o : Point}
    (ho : l.head? = some o) : _polygon_area2 l = fanSum o l := by
  obtain ⟨a, t, rfl⟩ := List.exists_cons_of_ne_nil (l := l) (by
    intro hc; rw [hc] at h3; simp at h3)
  have hao : a = o := by simpa using ho
  subst hao
  unfold _polygon_area2
  rw [if_neg (by omega)]
  have hrot : (a :: t).rotate 1 = t ++ [a] := by
    rw [List.rotate_cons_succ, List.rotate_zero]
  rw [hrot, zip_shift_sum t a a, fanSum_eq_segSum a t a]
  ring

theorem fanSum_eq_zero {o : Point} :
    ∀ {l : List Point}, (∀ a ∈ l, ∀ b ∈ l, _cross o a b = 0) → fanSum o l = 0
  | [], _ => rfl
  | [_], _ => rfl
  | a :: b :: r, h => by
    show _cross o a b + fanSum o (b :: r) = 0
    rw [h a (by simp) b (by simp)]
    rw [fanSum_eq_zero (fun x hx y hy => h x (by simp [hx]) y (by simp [hy]))]
    ring

theorem cross_of_line {P D p1 p2 p3 : Point} {t1 t2 t3 : ℚ}
    (h1 : p1 = (P.1 + t1 * D.1, P.2 + t1 * D.2))
    (h2 : p2 = (P.1 + t2 * D.1, P.2 + t2 * D.2))
    (h3 : p3 = (P.1 + t3 * D.1, P.2 + t3 * D.2)) : _cross p1 p2 p3 = 0 := by
  subst h1 h2 h3
  unfold _cross
  ring

theorem polygon_area2_of_line {l : List Point} {P D : Point}
    (hline : ∀ p ∈ l, ∃ t : ℚ, p = (P.1 + t * D.1, P.2 + t * D.2)) :
    _polygon_area2 l = 0 := by
  by_cases h3 : 3 ≤ l.length
  · obtain ⟨a, t, rfl⟩ := List.exists_cons_of_ne_nil (l := l) (by
      intro hc; rw [hc] at h3; simp at h3)
    rw [polygon_area2_eq_fanSum _ h3 (o := a) rfl]
    refine fanSum_eq_zero ?_
    intro x hx y hy
    obtain ⟨ta, hta⟩ := hline a (by simp)
    obtain ⟨tx, htx⟩ := hline x hx
    obtain ⟨ty, hty⟩ := hline y hy
    exact cross_of_line hta htx hty
  · unfold _polygon_area2
    rw [if_pos (by omega)]

end AreaLemmas

section Claim5

theorem popTest_false_zero {eps : ℚ} (heps : 0 ≤ eps) : popTest false eps 0 = true := by
  simp [popTest, heps]

theorem popTest_true_zero {eps : ℚ} (heps : 0 ≤ eps) : popTest true eps 0 = false := by
  simp [popTest]
  linarith

theorem collinear_chainRev_false {eps : ℚ} (heps : 0 ≤ eps) {P D : Point} :
    ∀ {done : List Point}, 2 ≤ done.length →
      (∀ p ∈ done, ∃ t : ℚ, p = (P.1 + t * D.1, P.2 + t * D.2)) →
      chainRev false eps done = [done.getLastD (0, 0), done.headI] := by
  intro done
  induction done using List.reverseRecOn with
  | nil => intro h _; simp at h
  | append_singleton done p ih =>
    intro h2 hline
    rcases List.eq_nil_or_concat' done with hd | ⟨done', q, rfl⟩
    · subst hd; simp at h2
    · rw [chainRev_append_singleton]
      rcases List.eq_nil_or_concat' done' with hd' | ⟨done'', r, rfl⟩
      · subst hd'
        simp [chainRev, chainStep, popWhile]
      · have hsub : ∀ x ∈ (done'' ++ [r]) ++ [q],
            ∃ t : ℚ, x = (P.1 + t * D.1, P.2 + t * D.2) := by
          intro x hx
          exact hline x (by simp at hx ⊢; tauto)
        rw [ih (by simp) hsub]
        have hq : ∃ t : ℚ, q = (P.1 + t * D.1, P.2 + t * D.2) :=
          hline q (by simp)
        have hgl : ∃ t : ℚ, ((done'' ++ [r]) ++ [q]).getLastD (0, 0) =
            (P.1 + t * D.1, P.2 + t * D.2) := by
          obtain ⟨tq, htq⟩ := hq
          refine ⟨tq, ?_⟩
          simpa using htq
        have hhd : ((done'' ++ [r]) ++ [q]).headI ∈ (done'' ++ [r]) ++ [q] := by
          rcases done'' with - | ⟨x, xs⟩ <;> simp
        obtain ⟨t1, ht1⟩ := hgl
        obtain ⟨t2, ht2⟩ := hsub _ hhd
        obtain ⟨t3, ht3⟩ := hline p (by simp)
        show p :: popWhile false eps p _ = _
        rw [popWhile]
        rw [cross_of_line ht2 ht1 ht3, popTest_false_zero heps]
        have hfin1 : ((done'' ++ [r]) ++ [q] ++ [p]).getLastD (0, 0) = p := by simp
        have hfin2 : ((done'' ++ [r]) ++ [q] ++ [p]).headI = ((done'' ++ [r]) ++ [q]).headI := by
          rcases done'' with - | ⟨x, xs⟩ <;> simp
        rw [hfin1, hfin2]
        rfl

theorem collinear_chainRev_true {eps : ℚ} (heps : 0 ≤ eps) {P D : Point} :
    ∀ {done : List Point},
      (∀ p ∈ done, ∃ t : ℚ, p = (P.1 + t * D.1, P.2 + t * D.2)) →
      chainRev true eps done = done.reverse := by
  intro done
  induction done using List.reverseRecOn with
  | nil => intro _; rfl
  | append_singleton done p ih =>
    intro hline
    rw [chainRev_append_singleton]
    rw [ih (fun x hx => hline x (by simp [hx]))]
    show p :: popWhile true eps p done.reverse = (done ++ [p]).reverse
    rw [List.reverse_append]
    rcases hrev : done.reverse with - | ⟨a, rest⟩
    · simp [popWhile]
    · rcases rest with - | ⟨b, rest'⟩
      · simp [popWhile]
      · have ha : a ∈ done := by
          have : a ∈ done.reverse := by rw [hrev]; simp
          simpa using this
        have hb : b ∈ done := by
          have : b ∈ done.reverse := by rw [hrev]; simp
          simpa using this
        obtain ⟨t1, ht1⟩ := hline b (by simp [hb])
        obtain ⟨t2, ht2⟩ := hline a (by simp [ha])
        obtain ⟨t3, ht3⟩ := hline p (by simp)
        rw [popWhile, cross_of_line ht1 ht2 ht3, popTest_true_zero heps]
        simp

/-- Claim C5: for an input whose distinct points (at least 2 of them) all lie
on a common line, the corners-only mode returns exactly the lexicographically
smallest and largest points, in that order, while `include_collinear = true`
returns all distinct points in ascending order. -/
theorem claim5_collinear_modes (pts : List Point) (eps : ℚ) (heps : 0 ≤ eps)
    (hline : OnCommonLine pts) (h2 : 2 ≤ (sortedUniq pts).length) :
    convex_hull pts false eps =
      [(sortedUniq pts).headI, (sortedUniq pts).getLastD (0, 0)] ∧
      convex_hull pts true eps = sortedUniq pts := by
  obtain ⟨P, D, hPD⟩ := hline
  have huline : ∀ p ∈ sortedUniq pts, ∃ t : ℚ, p = (P.1 + t * D.1, P.2 + t * D.2) :=
    fun p hp => hPD p (mem_sortedUniq.mp hp)
  have hrline : ∀ p ∈ (sortedUniq pts).reverse,
      ∃ t : ℚ, p = (P.1 + t * D.1, P.2 + t * D.2) :=
    fun p hp => huline p (by simpa using hp)
  have hlow : chainRev false eps (sortedUniq pts) =
      [(sortedUniq pts).getLastD (0, 0), (sortedUniq pts).headI] :=
    collinear_chainRev_false heps h2 huline
  have hup : chainRev false eps (sortedUniq pts).reverse =
      [((sortedUniq pts).reverse).getLastD (0, 0), ((sortedUniq pts).reverse).headI] :=
    collinear_chainRev_false heps (by simpa using h2) hrline
  have hne : sortedUniq pts ≠ [] := by
    intro hc; rw [hc] at h2; simp at h2
  obtain ⟨u, t, hu⟩ := List.exists_cons_of_ne_nil hne
  have hrevLast : ((sortedUniq pts).reverse).getLastD (0, 0) = (sortedUniq pts).headI := by
    rw [List.getLastD_eq_getLast?, List.getLast?_reverse, hu]
    rfl
  have hrevHead : ((sortedUniq pts).reverse).headI = (sortedUniq pts).getLastD (0, 0) := by
    rcases hr : (sortedUniq pts).reverse with - | ⟨a, rest⟩
    · exact absurd (by simpa using hr) hne
    · have : (sortedUniq pts).getLast? = some a := by
        rw [← List.head?_reverse, hr]; rfl
      rw [List.getLastD_eq_getLast?, this]
      rfl
  have hcand : candidateHull false eps (sortedUniq pts) =
      [(sortedUniq pts).headI, (sortedUniq pts).getLastD (0, 0)] := by
    unfold candidateHull buildChain
    rw [hlow, hup, hrevLast, hrevHead]
    rfl
  constructor
  · rw [convex_hull_def, if_neg (by omega), if_neg (by simp), hcand]
    rw [if_neg (by simp)]
  · rw [convex_hull_def, if_neg (by omega)]
    have hctrue : chainRev true eps (sortedUniq pts) = (sortedUniq pts).reverse :=
      collinear_chainRev_true heps huline
    have hctrue' : chainRev true eps (sortedUniq pts).reverse = sortedUniq pts := by
      rw [collinear_chainRev_true heps hrline, List.reverse_reverse]
    have harea : _polygon_area2 (candidateHull true eps (sortedUniq pts)) = 0 := by
      refine polygon_area2_of_line (P := P) (D := D) ?_
      intro p hp
      refine huline p ?_
      unfold candidateHull buildChain at hp
      rw [hctrue, hctrue', List.reverse_reverse] at hp
      rcases List.mem_append.mp hp with h | h
      · exact List.dropLast_subset _ h
      · have := List.dropLast_subset _ h
        simpa using this
    rw [if_pos ⟨rfl, by rw [harea]; simpa [ratAbs] using heps⟩]

theorem claim5_witness :
    ((0 : ℚ) ≤ epsDefault ∧ OnCommonLine [((0 : ℚ), (0 : ℚ)), (1, 1), (2, 2)] ∧
      2 ≤ (sortedUniq [((0 : ℚ), (0 : ℚ)), (1, 1), (2, 2)]).length) ∧
      convex_hull [((0 : ℚ), (0 : ℚ)), (1, 1), (2, 2)] = [(0, 0), (2, 2)] ∧
      convex_hull [((0 : ℚ), (0 : ℚ)), (1, 1), (2, 2)] true = [(0, 0), (1, 1), (2, 2)] := by
  have hline : OnCommonLine [((0 : ℚ), (0 : ℚ)), (1, 1), (2, 2)] := by
    refine ⟨(0, 0), (1, 1), ?_⟩
    intro p hp
    simp only [List.mem_cons, List.not_mem_nil, or_false] at hp
    rcases hp with rfl | rfl | rfl
    · exact ⟨0, by norm_num⟩
    · exact ⟨1, by norm_num⟩
    · exact ⟨2, by norm_num⟩
  have h := claim5_collinear_modes [((0 : ℚ), (0 : ℚ)), (1, 1), (2, 2)] epsDefault
    (by norm_num [epsDefault]) hline (by decide)
  refine ⟨⟨by norm_num [epsDefault], hline, by decide⟩, ?_, ?_⟩
  · rw [show convex_hull [((0 : ℚ), (0 : ℚ)), (1, 1), (2, 2)] =
      convex_hull [((0 : ℚ), (0 : ℚ)), (1, 1), (2, 2)] false epsDefault from rfl, h.1]
    decide
  · rw [show convex_hull [((0 : ℚ), (0 : ℚ)), (1, 1), (2, 2)] true =
      convex_hull [((0 : ℚ), (0 : ℚ)), (1, 1), (2, 2)] true epsDefault from rfl, h.2]
    decide

end Claim5

section TurnsMachinery

theorem turnsRev_tail {R : Point → Point → Point → Prop} :
    ∀ {T : List Point} {z : Point}, TurnsRev R (z :: T) → TurnsRev R T := by
  intro T z h
  match T, h with
  | [], _ => trivial
  | [_], _ => trivial
  | b :: a :: rest, ⟨_, h2⟩ => exact h2

theorem turnsRev_of_suffix {R : Point → Point → Point → Prop}
    {T K : List Point} (hsuf : K <:+ T) (h : TurnsRev R T) : TurnsRev R K := by
  obtain ⟨pre, rfl⟩ := hsuf
  induction pre with
  | nil => exact h
  | cons x pre ih => exact ih (turnsRev_tail h)

theorem popWhile_stop (ic : Bool) (eps : ℚ) (p : Point) :
    ∀ {T : List Point} {a b : Point} {rest : List Point},
      popWhile ic eps p T = a :: b :: rest → popTest ic eps (_cross b a p) = false := by
  intro T
  induction T with
  | nil => intro a b rest h; exact absurd h (by simp [popWhile])
  | cons x T ih =>
    intro a b rest h
    match T, h with
    | [], h => exact absurd h (by simp [popWhile])
    | y :: T', h =>
      rw [popWhile] at h
      by_cases hc : popTest ic eps (_cross y x p) = true
      · rw [if_pos hc] at h
        exact ih h
      · rw [if_neg hc] at h
        obtain ⟨rfl, rfl, -⟩ : x = a ∧ y = b ∧ T' = rest := by
          injection h with h1 h2
          injection h2 with h2 h3
          exact ⟨h1, h2, h3⟩
        simpa using hc

theorem turnsRev_chainStep {ic : Bool} {eps : ℚ} {T : List Point} {p : Point}
    (h : TurnsRev (fun a b c => popTest ic eps (_cross a b c) = false) T) :
    TurnsRev (fun a b c => popTest ic eps (_cross a b c) = false) (chainStep ic eps T p) := by
  unfold chainStep
  have hK := turnsRev_of_suffix (popWhile_suffix ic eps p T) h
  rcases hpw : popWhile ic eps p T with - | ⟨a, K1⟩
  · trivial
  · rcases K1 with - | ⟨b, K2⟩
    · trivial
    · refine ⟨popWhile_stop ic eps p hpw, ?_⟩
      rw [← hpw]
      exact hK

theorem turnsRev_chainRev (ic : Bool) (eps : ℚ) (done : List Point) :
    TurnsRev (fun a b c => popTest ic eps (_cross a b c) = false) (chainRev ic eps done) := by
  induction done using List.reverseRecOn with
  | nil => trivial
  | append_singleton done p ih =>
    rw [chainRev_append_singleton]
    exact turnsRev_chainStep ih

end TurnsMachinery

section ConvexPosition

theorem prop_left {a b c d : Point} (hab : lexLt a b) (hbc : lexLt b c) (hcd : lexLt c d)
    (h1 : 0 < _cross a b c) (h2 : 0 < _cross b c d) :
    0 < _cross a b d ∧ 0 < _cross a c d := by
  have hbx : b.1 ≤ c.1 := lexLt_x_le hbc
  rcases eq_or_lt_of_le hbx with heq | hlt
  · exfalso
    have hc2 : b.2 < c.2 := by
      rcases hbc with h | ⟨-, h⟩
      · exact absurd heq (ne_of_lt h)
      · exact h
    have hd : c.1 ≤ d.1 := lexLt_x_le hcd
    have hexp : _cross b c d = -((c.2 - b.2) * (d.1 - b.1)) := by
      unfold _cross
      rw [← heq]
      ring
    rw [hexp] at h2
    nlinarith [mul_nonneg (by linarith : (0 : ℚ) ≤ c.2 - b.2)
      (by linarith [heq] : (0 : ℚ) ≤ d.1 - b.1)]
  · have hax : a.1 ≤ b.1 := lexLt_x_le hab
    have hcdx : c.1 ≤ d.1 := lexLt_x_le hcd
    constructor
    · have key : _cross a b d * (c.1 - b.1) =
          _cross a b c * (d.1 - b.1) + _cross b c d * (b.1 - a.1) := by
        unfold _cross; ring
      nlinarith [mul_pos h1 (show (0 : ℚ) < d.1 - b.1 by linarith),
        mul_nonneg (le_of_lt h2) (show (0 : ℚ) ≤ b.1 - a.1 by linarith)]
    · have key : _cross a c d * (c.1 - b.1) =
          _cross b c d * (c.1 - a.1) + _cross a b c * (d.1 - c.1) := by
        unfold _cross; ring
      nlinarith [mul_pos h2 (show (0 : ℚ) < c.1 - a.1 by linarith),
        mul_nonneg (le_of_lt h1) (show (0 : ℚ) ≤ d.1 - c.1 by linarith)]

theorem turnsRev_imp {R S : Point → Point → Point → Prop}
    (h : ∀ a b c, R a b c → S a b c) :
    ∀ {T : List Point}, TurnsRev R T → TurnsRev S T := by
  intro T
  match T with
  | [] => intro _; trivial
  | [_] => intro _; trivial
  | [_, _] => intro _; trivial
  | c :: b :: a :: rest =>
    intro ⟨h1, h2⟩
    exact ⟨h a b c h1, turnsRev_imp h h2⟩

theorem sees_pair (z : Point) :
    ∀ (T : List Point), (z :: T).Pairwise (fun a b => lexLt b a) →
      TurnsRev (fun a b c => 0 < _cross a b c) (z :: T) →
      List.Chain' (fun a b => 0 < _cross b a z) T := by
  intro T
  induction T with
  | nil => intro _ _; trivial
  | cons t0 T' ih =>
    intro hp ht
    cases T' with
    | nil => simp
    | cons t1 T'' =>
      rw [List.chain'_cons]
      have hz0 : 0 < _cross t1 t0 z := ht.1
      refine ⟨hz0, ?_⟩
      have hp' : (z :: t1 :: T'').Pairwise (fun a b => lexLt b a) := by
        refine List.Pairwise.sublist ?_ hp
        exact List.Sublist.cons₂ z (List.Sublist.cons t0 (List.Sublist.refl _))
      refine ih hp' ?_
      cases T'' with
      | nil => trivial
      | cons t2 rest =>
        have h1 : 0 < _cross t2 t1 t0 := ht.2.1
        have hord := hp
        have h10 : lexLt t1 t0 := by
          have := List.pairwise_cons.mp (List.pairwise_cons.mp hord).2
          exact this.1 t1 (by simp)
        have h21 : lexLt t2 t1 := by
          have := List.pairwise_cons.mp (List.pairwise_cons.mp
            (List.pairwise_cons.mp hord).2).2
          exact this.1 t2 (by simp)
        have h0z : lexLt t0 z := by
          exact (List.pairwise_cons.mp hord).1 t0 (by simp)
        refine ⟨(prop_left h21 h10 h0z h1 hz0).1, ?_⟩
        exact turnsRev_tail (turnsRev_tail ht)

theorem sees_all (z : Point) :
    ∀ (T : List Point), (z :: T).Pairwise (fun a b => lexLt b a) →
      List.Chain' (fun a b => 0 < _cross b a z) T →
      (∀ {c b a : Point}, List.Sublist [c, b, a] T → 0 < _cross a b c) →
      ∀ {x y : Point}, List.Sublist [x, y] T → 0 < _cross y x z := by
  intro T
  induction T with
  | nil =>
    intro _ _ _ x y hxy
    exact absurd hxy (by simp)
  | cons t0 T' ih =>
    intro hp hch htrip x y hxy
    cases hxy with
    | cons _ hxy' =>
      refine ih ?_ ?_ ?_ hxy'
      · refine List.Pairwise.sublist ?_ hp
        exact List.Sublist.cons₂ z (List.Sublist.cons t0 (List.Sublist.refl _))
      · exact hch.tail
      · intro c b a habc
        exact htrip (List.Sublist.cons t0 habc)
    | cons₂ _ hy =>
      cases T' with
      | nil => exact absurd hy (by simp)
      | cons t1 T'' =>
        have hz1 : 0 < _cross t1 t0 z := (List.chain'_cons.mp hch).1
        cases hy with
        | cons₂ _ _ => exact hz1
        | cons _ hy' =>
          have htr : 0 < _cross y t1 t0 :=
            htrip (List.Sublist.cons₂ t0 (List.Sublist.cons₂ t1 hy'))
          have hymem : y ∈ T'' := hy'.subset (by simp)
          have h10 : lexLt t1 t0 := by
            have := List.pairwise_cons.mp (List.pairwise_cons.mp hp).2
            exact this.1 t1 (by simp)
          have hy1 : lexLt y t1 := by
            have := List.pairwise_cons.mp (List.pairwise_cons.mp
              (List.pairwise_cons.mp hp).2).2
            exact this.1 y (by simp [hymem])
          have h0z : lexLt t0 z := by
            exact (List.pairwise_cons.mp hp).1 t0 (by simp)
          exact (prop_left hy1 h10 h0z htr hz1).2

theorem convex_position :
    ∀ (T : List Point), T.Pairwise (fun a b => lexLt b a) →
      TurnsRev (fun a b c => 0 < _cross a b c) T →
      ∀ {c b a : Point}, List.Sublist [c, b, a] T → 0 < _cross a b c := by
  intro T
  induction T with
  | nil =>
    intro _ _ c b a habc
    exact absurd habc (by simp)
  | cons z T' ih =>
    intro hp ht c b a habc
    cases habc with
    | cons _ h' =>
      exact ih (List.pairwise_cons.mp hp).2 (turnsRev_tail ht) h'
    | cons₂ _ hba =>
      refine sees_all z T' hp (sees_pair z T' hp ht) ?_ hba
      intro c' b' a' h'
      exact ih (List.pairwise_cons.mp hp).2 (turnsRev_tail ht) h'

end ConvexPosition

section ChainTriples

theorem popTest_false_iff {eps t : ℚ} : popTest false eps t = false ↔ eps < t := by
  simp [popTest]

theorem popTest_true_iff {eps t : ℚ} : popTest true eps t = false ↔ -eps ≤ t := by
  simp [popTest]

theorem chainRev_sortedDesc (ic : Bool) (eps : ℚ) {done : List Point}
    (hs : done.Pairwise lexLt) :
    (chainRev ic eps done).Pairwise (fun a b => lexLt b a) := by
  have h1 : (chainRev ic eps done).reverse.Pairwise lexLt :=
    List.Pairwise.sublist (chainRev_reverse_sublist ic eps done) hs
  exact List.pairwise_reverse.mp h1

theorem chainRev_nodup (ic : Bool) (eps : ℚ) {done : List Point}
    (hs : done.Nodup) : (chainRev ic eps done).Nodup := by
  have h1 : (chainRev ic eps done).reverse.Nodup :=
    List.Nodup.sublist (chainRev_reverse_sublist ic eps done) hs
  rwa [List.nodup_reverse] at h1

theorem buildChain_nodup (ic : Bool) (eps : ℚ) {done : List Point}
    (hs : done.Nodup) : (buildChain ic eps done).Nodup := by
  unfold buildChain
  rw [List.nodup_reverse]
  exact chainRev_nodup ic eps hs

theorem ordered_triple_asc {eps : ℚ} (heps : 0 ≤ eps) {done : List Point}
    (hs : done.Pairwise lexLt) {a b c : Point}
    (h : List.Sublist [a, b, c] (buildChain false eps done)) : 0 < _cross a b c := by
  have h' : List.Sublist [c, b, a] (chainRev false eps done) := by
    have h2 := List.reverse_sublist.mpr h
    unfold buildChain at h2
    rw [List.reverse_reverse] at h2
    simpa using h2
  refine convex_position _ (chainRev_sortedDesc false eps hs) ?_ h'
  refine turnsRev_imp ?_ (turnsRev_chainRev false eps done)
  intro x y z hxyz
  have := popTest_false_iff.mp hxyz
  linarith

theorem cross_negP (o a b : Point) : _cross (negP o) (negP a) (negP b) = _cross o a b := by
  unfold _cross negP
  ring

theorem lexLt_negP {p q : Point} : lexLt (negP p) (negP q) ↔ lexLt q p := by
  unfold lexLt negP
  dsimp only
  constructor
  · rintro (h | ⟨e, h⟩)
    · exact Or.inl (by linarith)
    · exact Or.inr ⟨by linarith, by linarith⟩
  · rintro (h | ⟨e, h⟩)
    · exact Or.inl (by linarith)
    · exact Or.inr ⟨by linarith, by linarith⟩

theorem popWhile_map_negP (ic : Bool) (eps : ℚ) (p : Point) :
    ∀ T : List Point, popWhile ic eps (negP p) (T.map negP) = (popWhile ic eps p T).map negP := by
  intro T
  induction T with
  | nil => rfl
  | cons a T ih =>
    cases T with
    | nil => rfl
    | cons b rest =>
      show popWhile ic eps (negP p) (negP a :: negP b :: rest.map negP) = _
      rw [popWhile, popWhile, cross_negP]
      by_cases hc : popTest ic eps (_cross b a p) = true
      · rw [if_pos hc, if_pos hc]
        exact ih
      · rw [if_neg hc, if_neg hc]
        rfl

theorem chainRev_map_negP (ic : Bool) (eps : ℚ) :
    ∀ done : List Point,
      chainRev ic eps (done.map negP) = (chainRev ic eps done).map negP := by
  intro done
  induction done using List.reverseRecOn with
  | nil => rfl
  | append_singleton done p ih =>
    rw [List.map_append, List.map_singleton, chainRev_append_singleton,
      chainRev_append_singleton, ih]
    show negP p :: popWhile ic eps (negP p) ((chainRev ic eps done).map negP) = _
    rw [popWhile_map_negP]
    rfl

theorem buildChain_map_negP (ic : Bool) (eps : ℚ) (done : List Point) :
    buildChain ic eps (done.map negP) = (buildChain ic eps done).map negP := by
  unfold buildChain
  rw [chainRev_map_negP, List.map_reverse]

theorem ordered_triple_desc {eps : ℚ} (heps : 0 ≤ eps) {done : List Point}
    (hs : done.Pairwise fun a b => lexLt b a) {a b c : Point}
    (h : List.Sublist [a, b, c] (buildChain false eps done)) : 0 < _cross a b c := by
  have hmap : List.Sublist ([a, b, c].map negP) ((buildChain false eps done).map negP) :=
    h.map negP
  rw [← buildChain_map_negP] at hmap
  have hasc : (done.map negP).Pairwise lexLt := by
    rw [List.pairwise_map]
    exact hs.imp (fun h => lexLt_negP.mpr h)
  have := ordered_triple_asc heps hasc hmap
  rwa [cross_negP] at this

end ChainTriples

section CrossAlgebra

theorem cross_cyclic (o a b : Point) : _cross o a b = _cross a b o := by
  unfold _cross; ring

theorem cross_swap (o a b : Point) : _cross o a b = -_cross o b a := by
  unfold _cross; ring

theorem cross_degen_left (o a : Point) : _cross o a o = 0 := by
  unfold _cross; ring

theorem cross_degen_right (o a : Point) : _cross o a a = 0 := by
  unfold _cross; ring

end CrossAlgebra

section Stitching

theorem chainRev_head? (ic : Bool) (eps : ℚ) {done : List Point} (h : done ≠ []) :
    (chainRev ic eps done).head? = done.getLast? := by
  rcases List.eq_nil_or_concat' done with hd | ⟨done', q, rfl⟩
  · exact absurd hd h
  · rw [chainRev_head, List.getLast?_concat]

theorem buildChain_getLast? (ic : Bool) (eps : ℚ) {done : List Point} (h : done ≠ []) :
    (buildChain ic eps done).getLast? = done.getLast? := by
  unfold buildChain
  rw [List.getLast?_reverse]
  exact chainRev_head? ic eps h

theorem triple_of_mem_dropLast {l : List Point} {hd g w : Point}
    (hh : l.head? = some hd) (hg : l.getLast? = some g) (hw : w ∈ l.dropLast)
    (hne : w ≠ hd) : List.Sublist [hd, w, g] l := by
  obtain ⟨a, rest, rfl⟩ := List.exists_cons_of_ne_nil (l := l)
    (by intro hc; rw [hc] at hh; exact Option.noConfusion hh)
  have ha : a = hd := by simpa using hh
  subst ha
  rcases List.eq_nil_or_concat' rest with hr | ⟨body, g', rfl⟩
  · subst hr
    simp at hw
  · have hl : a :: (body ++ [g']) = (a :: body) ++ [g'] := by simp
    have hg' : g' = g := by
      rw [hl, List.getLast?_concat] at hg
      simpa using hg
    subst hg'
    have hwb : w ∈ a :: body := by
      rw [hl, List.dropLast_concat] at hw
      exact hw
    have hwb' : w ∈ body := by
      rcases List.mem_cons.mp hwb with rfl | h
      · exact absurd rfl hne
      · exact h
    rw [hl]
    have h1 : List.Sublist [a, w] (a :: body) :=
      List.Sublist.cons₂ a (List.singleton_sublist.mpr hwb')
    exact List.Sublist.append h1 (List.Sublist.refl [g'])

theorem head_lexLt_getLast {l : List Point} (hs : l.Pairwise lexLt)
    (h2 : 2 ≤ l.length) {A M : Point} (hA : l.head? = some A)
    (hM : l.getLast? = some M) : lexLt A M := by
  obtain ⟨a, rest, rfl⟩ := List.exists_cons_of_ne_nil (l := l)
    (by intro hc; rw [hc] at hA; exact Option.noConfusion hA)
  have ha : a = A := by simpa using hA
  subst ha
  have hrne : rest ≠ [] := by
    intro hc; rw [hc] at h2; simp at h2
  have hMr : rest.getLast? = some M := by
    obtain ⟨b, rest', rfl⟩ := List.exists_cons_of_ne_nil hrne
    rwa [List.getLast?_cons_cons] at hM
  have hMmem : M ∈ rest := List.mem_of_getLast?_eq_some hMr
  exact List.rel_of_pairwise_cons hs hMmem

theorem candidateHull_nodup (pts : List Point) (eps : ℚ) (heps : 0 ≤ eps)
    (h2 : 2 ≤ (sortedUniq pts).length) :
    (candidateHull false eps (sortedUniq pts)).Nodup := by
  have hsort := pairwise_lexLt_sortedUniq pts
  have hnodup := nodup_sortedUniq pts
  have hne : sortedUniq pts ≠ [] := by
    intro hc; rw [hc] at h2; simp at h2
  have hrevne : (sortedUniq pts).reverse ≠ [] := by simpa using hne
  obtain ⟨A, hA⟩ : ∃ A, (sortedUniq pts).head? = some A := by
    obtain ⟨a, t, ha⟩ := List.exists_cons_of_ne_nil hne
    exact ⟨a, by rw [ha]; rfl⟩
  obtain ⟨M, hM⟩ : ∃ M, (sortedUniq pts).getLast? = some M := by
    rw [List.getLast?_eq_getLast _ hne]; exact ⟨_, rfl⟩
  have hAM : lexLt A M := head_lexLt_getLast hsort h2 hA hM
  have hLhead : (buildChain false eps (sortedUniq pts)).head? = some A := by
    rw [buildChain_head false eps _ hne, hA]
  have hLlast : (buildChain false eps (sortedUniq pts)).getLast? = some M := by
    rw [buildChain_getLast? false eps hne, hM]
  have hUhead : (buildChain false eps (sortedUniq pts).reverse).head? = some M := by
    rw [buildChain_head false eps _ hrevne, List.head?_reverse, hM]
  have hUlast : (buildChain false eps (sortedUniq pts).reverse).getLast? = some A := by
    rw [buildChain_getLast? false eps hrevne, List.getLast?_reverse, hA]
  have hLd_cases : ∀ w ∈ (buildChain false eps (sortedUniq pts)).dropLast,
      w = A ∨ _cross A M w < 0 := by
    intro w hw
    by_cases hwA : w = A
    · exact Or.inl hwA
    · refine Or.inr ?_
      have htr := triple_of_mem_dropLast hLhead hLlast hw hwA
      have hpos := ordered_triple_asc heps hsort htr
      rw [cross_swap]
      linarith
  have hUd_cases : ∀ w ∈ (buildChain false eps (sortedUniq pts).reverse).dropLast,
      w = M ∨ 0 < _cross A M w := by
    intro w hw
    by_cases hwM : w = M
    · exact Or.inl hwM
    · refine Or.inr ?_
      have htr := triple_of_mem_dropLast hUhead hUlast hw hwM
      have hdesc : ((sortedUniq pts).reverse).Pairwise (fun a b => lexLt b a) :=
        List.pairwise_reverse.mpr hsort
      have hpos := ordered_triple_desc heps hdesc htr
      rw [show _cross A M w = _cross M w A by rw [cross_cyclic M w A, cross_cyclic w A M]]
      exact hpos
  unfold candidateHull
  rw [List.nodup_append]
  refine ⟨List.Nodup.sublist (List.dropLast_sublist _) (buildChain_nodup false eps hnodup),
    List.Nodup.sublist (List.dropLast_sublist _)
      (buildChain_nodup false eps (by simpa using hnodup)), ?_⟩
  rw [List.disjoint_left]
  intro w hwL hwU
  rcases hLd_cases w hwL with rfl | hneg
  · rcases hUd_cases w hwU with heq | hpos
    · rw [heq] at hAM
      exact lexLt_irrefl M hAM
    · rw [cross_degen_left] at hpos
      exact lt_irrefl 0 hpos
  · rcases hUd_cases w hwU with rfl | hpos
    · rw [cross_degen_right] at hneg
      exact lt_irrefl 0 hneg
    · linarith

end Stitching

section Claim6

/-- Claim C6, as stated, is false: with `include_collinear = true` at the
default tolerance, a nearly-degenerate input produces duplicated coordinate
pairs in the output. -/
theorem claim6_counterexample :
    ¬ (convex_hull [((0 : ℚ), (0 : ℚ)), (1, -1 / 100000000000000000000),
        (1, 1 / 100000000000000000000), (1, 10), (2, 0)] true epsDefault).Nodup := by
  have hu : sortedUniq [((0 : ℚ), (0 : ℚ)), (1, -1 / 100000000000000000000),
      (1, 1 / 100000000000000000000), (1, 10), (2, 0)] =
      [((0 : ℚ), (0 : ℚ)), (1, -1 / 100000000000000000000),
        (1, 1 / 100000000000000000000), (1, 10), (2, 0)] :=
    sortedUniq_of_sorted (by norm_num [List.pairwise_cons, lexLt])
  have hc : candidateHull true epsDefault [((0 : ℚ), (0 : ℚ)), (1, -1 / 100000000000000000000),
      (1, 1 / 100000000000000000000), (1, 10), (2, 0)] =
      [((0 : ℚ), (0 : ℚ)), (1, -1 / 100000000000000000000), (1, 1 / 100000000000000000000),
        (2, 0), (1, 10), (1, 1 / 100000000000000000000), (1, -1 / 100000000000000000000)] := by
    norm_num [candidateHull, buildChain, chainRev, List.foldl, chainStep, popWhile,
      popTest, _cross, epsDefault]
  have harea : ¬ ratAbs (_polygon_area2
      [((0 : ℚ), (0 : ℚ)), (1, -1 / 100000000000000000000), (1, 1 / 100000000000000000000),
        (2, 0), (1, 10), (1, 1 / 100000000000000000000), (1, -1 / 100000000000000000000)]) ≤
      epsDefault := by
    norm_num [_polygon_area2, ratAbs, epsDefault, List.rotate]
  have heq : convex_hull [((0 : ℚ), (0 : ℚ)), (1, -1 / 100000000000000000000),
      (1, 1 / 100000000000000000000), (1, 10), (2, 0)] true epsDefault =
      [((0 : ℚ), (0 : ℚ)), (1, -1 / 100000000000000000000), (1, 1 / 100000000000000000000),
        (2, 0), (1, 10), (1, 1 / 100000000000000000000), (1, -1 / 100000000000000000000)] := by
    rw [convex_hull_def, hu, hc]
    rw [if_neg (by norm_num)]
    rw [if_neg (fun hcon => harea hcon.2)]
    rw [if_neg (by norm_num)]
  rw [heq]
  intro h
  have := @List.Nodup.sublist _ [((1 : ℚ), -1 / 100000000000000000000),
    ((1 : ℚ), -1 / 100000000000000000000)] _ (by
      refine List.Sublist.cons _ ?_
      refine List.Sublist.cons₂ _ ?_
      refine List.Sublist.cons _ ?_
      refine List.Sublist.cons _ ?_
      refine List.Sublist.cons _ ?_
      refine List.Sublist.cons _ ?_
      exact List.Sublist.cons₂ _ (List.nil_sublist _)) h
  simp [List.nodup_cons] at this

/-- Claim C6, amended: in both modes every output point is one of the input
points, and in corners-only mode (`include_collinear = false`, with a
nonnegative tolerance) the output contains no duplicate coordinate pairs. -/
theorem claim6_amended (pts : List Point) (ic : Bool) (eps : ℚ) (heps : 0 ≤ eps) :
    (∀ q ∈ convex_hull pts ic eps, q ∈ pts) ∧ (convex_hull pts false eps).Nodup := by
  have hmemuniq : ∀ q ∈ sortedUniq pts, q ∈ pts := fun q hq => mem_sortedUniq.mp hq
  have hsubhull : ∀ (b : Bool), ∀ q ∈ candidateHull b eps (sortedUniq pts), q ∈ pts := by
    intro b q hq
    unfold candidateHull at hq
    rcases List.mem_append.mp hq with h | h
    · exact hmemuniq q ((buildChain_sublist b eps _).subset (List.dropLast_subset _ h))
    · have := (buildChain_sublist b eps _).subset (List.dropLast_subset _ h)
      exact hmemuniq q (by simpa using this)
  have hfb : ∀ q ∈ [(sortedUniq pts).headI, (sortedUniq pts).getLastD (0, 0)],
      sortedUniq pts ≠ [] → q ∈ pts := by
    intro q hq hne
    obtain ⟨a, t, ha⟩ := List.exists_cons_of_ne_nil hne
    rcases List.mem_cons.mp hq with rfl | hq'
    · refine hmemuniq _ ?_
      rw [ha]
      exact List.mem_cons_self a t
    · have hq'' : q = (sortedUniq pts).getLastD (0, 0) := by simpa using hq'
      subst hq''
      refine hmemuniq _ ?_
      rw [List.getLastD_eq_getLast?, List.getLast?_eq_getLast _ hne]
      exact List.getLast_mem hne
  constructor
  · intro q hq
    rw [convex_hull_def] at hq
    by_cases h1 : (sortedUniq pts).length ≤ 1
    · rw [if_pos h1] at hq
      exact hmemuniq q hq
    · rw [if_neg h1] at hq
      have hne : sortedUniq pts ≠ [] := by
        intro hc; rw [hc] at h1; simp at h1
      by_cases harea : ic = true ∧
          ratAbs (_polygon_area2 (candidateHull ic eps (sortedUniq pts))) ≤ eps
      · rw [if_pos harea] at hq
        exact hmemuniq q hq
      · rw [if_neg harea] at hq
        by_cases hlen : (candidateHull ic eps (sortedUniq pts)).length = 0
        · rw [if_pos hlen] at hq
          by_cases hic : ic
          · rw [if_pos hic] at hq
            exact hmemuniq q hq
          · rw [if_neg hic] at hq
            by_cases hnefb : (sortedUniq pts).headI ≠ (sortedUniq pts).getLastD (0, 0)
            · rw [if_pos hnefb] at hq
              exact hfb q hq hne
            · rw [if_neg hnefb] at hq
              have hq' : q = (sortedUniq pts).headI := by simpa using hq
              subst hq'
              refine hmemuniq _ ?_
              obtain ⟨a, t, ha⟩ := List.exists_cons_of_ne_nil hne
              rw [ha]
              simp
        · rw [if_neg hlen] at hq
          exact hsubhull ic q hq
  · rw [convex_hull_def]
    by_cases h1 : (sortedUniq pts).length ≤ 1
    · rw [if_pos h1]
      exact nodup_sortedUniq pts
    · rw [if_neg h1]
      rw [if_neg (by simp)]
      by_cases hlen : (candidateHull false eps (sortedUniq pts)).length = 0
      · rw [if_pos hlen]
        rw [if_neg (by simp)]
        by_cases hnefb : (sortedUniq pts).headI ≠ (sortedUniq pts).getLastD (0, 0)
        · rw [if_pos hnefb]
          refine List.nodup_cons.mpr ⟨?_, List.nodup_singleton _⟩
          simpa using hnefb
        · rw [if_neg hnefb]
          simp
      · rw [if_neg hlen]
        exact candidateHull_nodup pts eps heps (by omega)

theorem claim6_witness :
    (0 : ℚ) ≤ epsDefault ∧
      ((∀ q ∈ convex_hull [((0 : ℚ), (0 : ℚ)), (2, 1), (1, 5)] false epsDefault,
          q ∈ [((0 : ℚ), (0 : ℚ)), (2, 1), (1, 5)]) ∧
        (convex_hull [((0 : ℚ), (0 : ℚ)), (2, 1), (1, 5)] false epsDefault).Nodup) :=
  ⟨by norm_num [epsDefault],
    claim6_amended [((0 : ℚ), (0 : ℚ)), (2, 1), (1, 5)] false epsDefault
      (by norm_num [epsDefault])⟩

end Claim6

section Counterexamples

/-- Claim C1, as stated, is false: at the default tolerance, corners-only mode
can drop a point that is strictly outside the polygon it returns. Here the
input point `(1, 1e-13)` lies slightly above the segment from `(0,0)` to
`(2,0)`, yet the tolerant pop test removes it from both chains, so the output
is the triangle `[(0,0), (1,-5), (2,0)]` and `(1, 1e-13)` falls strictly
outside it. -/
theorem claim1_counterexample :
    ((1 : ℚ), (1 : ℚ) / 10000000000000) ∈
      ([((0 : ℚ), (0 : ℚ)), (1, -5), (1, 1 / 10000000000000), (2, 0)] : List Point) ∧
    onOrInside (convex_hull [((0 : ℚ), (0 : ℚ)), (1, -5), (1, 1 / 10000000000000), (2, 0)]
        false epsDefault) ((1 : ℚ), (1 : ℚ) / 10000000000000) = false := by
  constructor
  · norm_num
  · have hu : sortedUniq [((0 : ℚ), (0 : ℚ)), (1, -5), (1, 1 / 10000000000000), (2, 0)] =
        [((0 : ℚ), (0 : ℚ)), (1, -5), (1, 1 / 10000000000000), (2, 0)] :=
      sortedUniq_of_sorted (by norm_num [List.pairwise_cons, lexLt])
    have hc : candidateHull false epsDefault
        [((0 : ℚ), (0 : ℚ)), (1, -5), (1, 1 / 10000000000000), (2, 0)] =
        [((0 : ℚ), (0 : ℚ)), (1, -5), (2, 0)] := by
      norm_num [candidateHull, buildChain, chainRev, List.foldl, chainStep, popWhile,
        popTest, _cross, epsDefault]
    have heq : convex_hull [((0 : ℚ), (0 : ℚ)), (1, -5), (1, 1 / 10000000000000), (2, 0)]
        false epsDefault = [((0 : ℚ), (0 : ℚ)), (1, -5), (2, 0)] := by
      rw [convex_hull_def, hu, hc]
      rw [if_neg (by norm_num)]
      rw [if_neg (by simp)]
      rw [if_neg (by norm_num)]
    rw [heq]
    norm_num [onOrInside, List.rotate, _cross]

/-- Claim C2, as stated, is false: at the default tolerance, three distinct
points that are not collinear can produce a two-point output, whose shoelace
area is `0`, not positive. -/
theorem claim2_counterexample :
    3 ≤ (sortedUniq [((0 : ℚ), (0 : ℚ)), (1, 1 / 10000000000000), (2, 0)]).length ∧
    ¬ OnCommonLine [((0 : ℚ), (0 : ℚ)), (1, 1 / 10000000000000), (2, 0)] ∧
    ¬ 0 < _polygon_area2 (convex_hull [((0 : ℚ), (0 : ℚ)), (1, 1 / 10000000000000), (2, 0)]
        false epsDefault) := by
  have hu : sortedUniq [((0 : ℚ), (0 : ℚ)), (1, 1 / 10000000000000), (2, 0)] =
      [((0 : ℚ), (0 : ℚ)), (1, 1 / 10000000000000), (2, 0)] :=
    sortedUniq_of_sorted (by norm_num [List.pairwise_cons, lexLt])
  refine ⟨by rw [hu]; norm_num, ?_, ?_⟩
  · rintro ⟨P, D, h⟩
    obtain ⟨t1, h1⟩ := h ((0 : ℚ), (0 : ℚ)) (by norm_num)
    obtain ⟨t2, h2⟩ := h ((1 : ℚ), 1 / 10000000000000) (by norm_num)
    obtain ⟨t3, h3⟩ := h ((2 : ℚ), (0 : ℚ)) (by norm_num)
    have := cross_of_line h1 h2 h3
    norm_num [_cross] at this
  · have hc : candidateHull false epsDefault
        [((0 : ℚ), (0 : ℚ)), (1, 1 / 10000000000000), (2, 0)] =
        [((0 : ℚ), (0 : ℚ)), (2, 0)] := by
      norm_num [candidateHull, buildChain, chainRev, List.foldl, chainStep, popWhile,
        popTest, _cross, epsDefault]
    have heq : convex_hull [((0 : ℚ), (0 : ℚ)), (1, 1 / 10000000000000), (2, 0)]
        false epsDefault = [((0 : ℚ), (0 : ℚ)), (2, 0)] := by
      rw [convex_hull_def, hu, hc]
      rw [if_neg (by norm_num)]
      rw [if_neg (by simp)]
      rw [if_neg (by norm_num)]
    rw [heq]
    norm_num [_polygon_area2]

/-- Claim C3, as stated, is false: at the default tolerance with
`include_collinear = true`, the point `(1, 2.5e-13)` survives the lenient pop
test and appears in the output, although it is strictly interior to the
convex hull of the input (the exact hull, computed with `eps = 0`, is the
triangle `[(0,0), (2,0), (1,1)]`). -/
theorem claim3_counterexample :
    ((1 : ℚ), (1 : ℚ) / 4000000000000) ∈
      convex_hull [((0 : ℚ), (0 : ℚ)), (1, 1 / 4000000000000), (1, 1), (2, 0)] true epsDefault ∧
    strictlyInside (convex_hull [((0 : ℚ), (0 : ℚ)), (1, 1 / 4000000000000), (1, 1), (2, 0)]
        false 0) ((1 : ℚ), (1 : ℚ) / 4000000000000) = true := by
  have hu : sortedUniq [((0 : ℚ), (0 : ℚ)), (1, 1 / 4000000000000), (1, 1), (2, 0)] =
      [((0 : ℚ), (0 : ℚ)), (1, 1 / 4000000000000), (1, 1), (2, 0)] :=
    sortedUniq_of_sorted (by norm_num [List.pairwise_cons, lexLt])
  constructor
  · have hc : candidateHull true epsDefault
        [((0 : ℚ), (0 : ℚ)), (1, 1 / 4000000000000), (1, 1), (2, 0)] =
        [((0 : ℚ), (0 : ℚ)), (1, 1 / 4000000000000), (2, 0), (1, 1)] := by
      norm_num [candidateHull, buildChain, chainRev, List.foldl, chainStep, popWhile,
        popTest, _cross, epsDefault]
    have harea : ¬ ratAbs (_polygon_area2
        [((0 : ℚ), (0 : ℚ)), (1, 1 / 4000000000000), (2, 0), (1, 1)]) ≤ epsDefault := by
      norm_num [_polygon_area2, ratAbs, epsDefault, List.rotate]
    have heq : convex_hull [((0 : ℚ), (0 : ℚ)), (1, 1 / 4000000000000), (1, 1), (2, 0)]
        true epsDefault = [((0 : ℚ), (0 : ℚ)), (1, 1 / 4000000000000), (2, 0), (1, 1)] := by
      rw [convex_hull_def, hu, hc]
      rw [if_neg (by norm_num)]
      rw [if_neg (fun hcon => harea hcon.2)]
      rw [if_neg (by norm_num)]
    rw [heq]
    norm_num
  · have hc0 : candidateHull false 0
        [((0 : ℚ), (0 : ℚ)), (1, 1 / 4000000000000), (1, 1), (2, 0)] =
        [((0 : ℚ), (0 : ℚ)), (2, 0), (1, 1)] := by
      norm_num [candidateHull, buildChain, chainRev, List.foldl, chainStep, popWhile,
        popTest, _cross]
    have heq0 : convex_hull [((0 : ℚ), (0 : ℚ)), (1, 1 / 4000000000000), (1, 1), (2, 0)]
        false 0 = [((0 : ℚ), (0 : ℚ)), (2, 0), (1, 1)] := by
      rw [convex_hull_def, hu, hc0]
      rw [if_neg (by norm_num)]
      rw [if_neg (by simp)]
      rw [if_neg (by norm_num)]
    rw [heq0]
    norm_num [strictlyInside, List.rotate, _cross]

end Counterexamples


section HalfplaneInvariant

theorem popTest_zero_pop {ic : Bool} {t : ℚ} (h : popTest ic 0 t = true) : t ≤ 0 := by
  cases ic
  · simpa [popTest] using h
  · have : t < 0 := by simpa [popTest] using h
    linarith

theorem popTest_zero_stop {ic : Bool} {t : ℚ} (h : popTest ic 0 t = false) : 0 ≤ t := by
  cases ic
  · have : 0 < t := by simpa [popTest] using h
    linarith
  · simpa [popTest] using h

theorem lexLt_tie {p q : Point} (h : lexLt p q) (hx : q.1 ≤ p.1) : p.1 = q.1 ∧ p.2 < q.2 := by
  rcases h with h | ⟨he, hy⟩
  · exact absurd hx (not_le.mpr h)
  · exact ⟨he, hy⟩

theorem cross_self_left (a p : Point) : _cross a a p = 0 := by
  unfold _cross; ring

theorem prop_edge_down {u v w p : Point} (huv : lexLt u v) (hvw : lexLt v w)
    (hwp : lexLt w p) (h1 : 0 ≤ _cross u v w) (h2 : 0 ≤ _cross v w p) :
    0 ≤ _cross u v p := by
  have hux : u.1 ≤ v.1 := lexLt_x_le huv
  have hvx : v.1 ≤ w.1 := lexLt_x_le hvw
  have hwx : w.1 ≤ p.1 := lexLt_x_le hwp
  rcases lt_or_eq_of_le hvx with hlt | heq
  · have key : _cross u v p * (w.1 - v.1) =
        _cross u v w * (p.1 - v.1) + _cross v w p * (v.1 - u.1) := by
      unfold _cross; ring
    nlinarith [mul_nonneg h1 (show (0 : ℚ) ≤ p.1 - v.1 by linarith),
      mul_nonneg h2 (show (0 : ℚ) ≤ v.1 - u.1 by linarith)]
  · obtain ⟨-, hy⟩ := lexLt_tie hvw (le_of_eq heq.symm)
    rcases lt_or_eq_of_le hwx with hplt | hpeq
    · exfalso
      have hneg : _cross v w p = -((w.2 - v.2) * (p.1 - v.1)) := by
        unfold _cross
        rw [← heq]
        ring
      rw [hneg] at h2
      nlinarith [mul_pos (show (0 : ℚ) < w.2 - v.2 by linarith)
        (show (0 : ℚ) < p.1 - v.1 by linarith)]
    · obtain ⟨-, hpy⟩ := lexLt_tie hwp (le_of_eq hpeq.symm)
      have hq1 : p.1 = v.1 := by rw [← hpeq, ← heq]
      have hval : _cross u v p = (v.1 - u.1) * (p.2 - v.2) := by
        unfold _cross
        rw [hq1]
        ring
      rw [hval]
      exact mul_nonneg (by linarith) (by linarith)

theorem skip_nonneg {u v w d : Point} (huv : lexLt u v) (hvw : lexLt v w)
    (hwd : lexLt w d) (h1 : 0 ≤ _cross u v d) (h2 : 0 ≤ _cross v w d) :
    0 ≤ _cross u w d := by
  have hux : u.1 ≤ v.1 := lexLt_x_le huv
  have hvx : v.1 ≤ w.1 := lexLt_x_le hvw
  have hwx : w.1 ≤ d.1 := lexLt_x_le hwd
  rcases lt_or_eq_of_le (le_trans hvx hwx) with hlt | heq
  · have key : _cross u w d * (d.1 - v.1) =
        _cross u v d * (d.1 - w.1) + _cross v w d * (d.1 - u.1) := by
      unfold _cross; ring
    nlinarith [mul_nonneg h1 (show (0 : ℚ) ≤ d.1 - w.1 by linarith),
      mul_nonneg h2 (show (0 : ℚ) ≤ d.1 - u.1 by linarith)]
  · have hwv : w.1 = v.1 := le_antisymm (by linarith) hvx
    have hdw : d.1 = w.1 := by linarith
    obtain ⟨-, hy1⟩ := lexLt_tie hvw (le_of_eq hwv)
    obtain ⟨-, hy2⟩ := lexLt_tie hwd (le_of_eq hdw)
    have hval : _cross u w d = (w.1 - u.1) * (d.2 - w.2) := by
      unfold _cross
      rw [hdw]
      ring
    rw [hval]
    exact mul_nonneg (by linarith) (by linarith)

theorem skip_nonpos {u v w d : Point} (huv : lexLt u v) (hvw : lexLt v w)
    (hwd : lexLt w d) (h1 : _cross u v d ≤ 0) (h2 : _cross v w d ≤ 0) :
    _cross u w d ≤ 0 := by
  have hux : u.1 ≤ v.1 := lexLt_x_le huv
  have hvx : v.1 ≤ w.1 := lexLt_x_le hvw
  have hwx : w.1 ≤ d.1 := lexLt_x_le hwd
  rcases lt_or_eq_of_le (le_trans hvx hwx) with hlt | heq
  · have key : _cross u w d * (d.1 - v.1) =
        _cross u v d * (d.1 - w.1) + _cross v w d * (d.1 - u.1) := by
      unfold _cross; ring
    nlinarith [mul_nonpos_of_nonpos_of_nonneg h1 (show (0 : ℚ) ≤ d.1 - w.1 by linarith),
      mul_nonpos_of_nonpos_of_nonneg h2 (show (0 : ℚ) ≤ d.1 - u.1 by linarith)]
  · have hwv : w.1 = v.1 := le_antisymm (by linarith) hvx
    have hdv : d.1 = v.1 := by linarith
    obtain ⟨-, hy1⟩ := lexLt_tie hvw (le_of_eq hwv)
    obtain ⟨-, hy2⟩ := lexLt_tie hwd (by rw [hdv, ← hwv])
    have hval1 : _cross u v d = (v.1 - u.1) * (d.2 - v.2) := by
      unfold _cross
      rw [hdv]
      ring
    have hzero : v.1 - u.1 = 0 := by
      by_contra hne
      have hpos : 0 < (v.1 - u.1) * (d.2 - v.2) :=
        mul_pos (lt_of_le_of_ne (by linarith) (Ne.symm hne)) (by linarith)
      rw [hval1] at h1
      linarith
    have hval2 : _cross u w d = (w.1 - u.1) * (d.2 - w.2) := by
      unfold _cross
      rw [hdv, ← hwv]
      ring
    rw [hval2, hwv, hzero]
    simp

theorem chain_edges_left (p : Point) :
    ∀ T : List Point, T.Pairwise (fun x y => lexLt y x) → (∀ q ∈ T, lexLt q p) →
      TurnsRev (fun a b c => 0 ≤ _cross a b c) T →
      (∀ x y r, T = x :: y :: r → 0 ≤ _cross y x p) →
      List.Chain' (fun x y => 0 ≤ _cross y x p) T := by
  intro T
  induction T with
  | nil => intro _ _ _ _; trivial
  | cons a T ih =>
    intro hs hlt ht htop
    cases T with
    | nil => simp
    | cons b rest =>
      rw [List.chain'_cons]
      refine ⟨htop a b rest rfl, ?_⟩
      refine ih (hs.sublist (List.sublist_cons_self a _))
        (fun q hq => hlt q (List.mem_cons_of_mem a hq)) (turnsRev_tail ht) ?_
      intro x y r hr
      have hbx : b = x := by injection hr with h1 _
      have hrest : rest = y :: r := by injection hr with _ h2
      subst hbx
      subst hrest
      have hturn : 0 ≤ _cross y b a := ht.1
      have hyb : lexLt y b := (List.pairwise_cons.mp
        ((List.pairwise_cons.mp hs).2)).1 y (by simp)
      have hba : lexLt b a := (List.pairwise_cons.mp hs).1 b (by simp)
      have hap : lexLt a p := hlt a (by simp)
      exact prop_edge_down hyb hba hap hturn (htop a b (y :: r) rfl)

theorem verts_left_aux (ae p : Point) :
    ∀ (T : List Point) (b : Point), 0 ≤ _cross b ae p →
      List.Chain' (fun x y => 0 ≤ _cross y x p) (b :: T) →
      (b :: T).Pairwise (fun x y => lexLt y x) →
      lexLt b ae → lexLt ae p →
      ∀ q ∈ b :: T, 0 ≤ _cross q ae p := by
  intro T
  induction T with
  | nil =>
    intro b hconn _ _ _ _ q hq
    have hqb : q = b := by simpa using hq
    subst hqb
    exact hconn
  | cons c rest ih =>
    intro b hconn hchain hs hbae haep q hq
    rcases List.mem_cons.mp hq with hqb | hq'
    · subst hqb
      exact hconn
    · have hcb : lexLt c b := (List.pairwise_cons.mp hs).1 c (by simp)
      have hedge : 0 ≤ _cross c b p := (List.chain'_cons.mp hchain).1
      have hconn' : 0 ≤ _cross c ae p := skip_nonneg hcb hbae haep hedge hconn
      exact ih c hconn' (List.chain'_cons.mp hchain).2
        (hs.sublist (List.sublist_cons_self b _)) (lexLt_trans hcb hbae) haep q hq'

theorem chain_vertices_left (p : Point) (T : List Point) (a : Point)
    (hs : (a :: T).Pairwise (fun x y => lexLt y x))
    (hlt : ∀ q ∈ a :: T, lexLt q p)
    (hchain : List.Chain' (fun x y => 0 ≤ _cross y x p) (a :: T)) :
    ∀ q ∈ a :: T, 0 ≤ _cross q a p := by
  intro q hq
  rcases List.mem_cons.mp hq with hqa | hq'
  · subst hqa
    exact le_of_eq (cross_self_left q p).symm
  · cases T with
    | nil => exact absurd hq' (List.not_mem_nil q)
    | cons b rest =>
      have hconn : 0 ≤ _cross b a p := (List.chain'_cons.mp hchain).1
      have hba : lexLt b a := (List.pairwise_cons.mp hs).1 b (by simp)
      exact verts_left_aux a p rest b hconn (List.chain'_cons.mp hchain).2
        (hs.sublist (List.sublist_cons_self a _)) hba (hlt a (by simp)) q hq'

theorem popWhile_head_edge (ic : Bool) (p : Point) :
    ∀ T : List Point, T.Pairwise (fun x y => lexLt y x) → (∀ q ∈ T, lexLt q p) →
      TurnsRev (fun a b c => 0 ≤ _cross a b c) T →
      ∀ q ∈ T, ∀ u K, popWhile ic 0 p T = u :: K → 0 ≤ _cross q u p := by
  intro T
  induction T with
  | nil => intro _ _ _ q hq; exact absurd hq (List.not_mem_nil q)
  | cons a T ih =>
    intro hs hlt ht q hq u K hpw
    cases T with
    | nil =>
      have h0 : ([a] : List Point) = u :: K := hpw
      have hau : a = u := by injection h0 with h1 _
      have hqa : q = a := by simpa using hq
      subst hqa
      rw [← hau]
      exact le_of_eq (cross_self_left q p).symm
    | cons b rest =>
      rw [popWhile] at hpw
      by_cases hc : popTest ic 0 (_cross b a p) = true
      · rw [if_pos hc] at hpw
        have hpop : _cross b a p ≤ 0 := popTest_zero_pop hc
        rcases List.mem_cons.mp hq with hqa | hq'
        · subst hqa
          have hsuf : u :: K <:+ b :: rest := by
            rw [← hpw]
            exact popWhile_suffix ic 0 p (b :: rest)
          have hbq : lexLt b q := (List.pairwise_cons.mp hs).1 b (by simp)
          have hqp : lexLt q p := hlt q (by simp)
          rcases List.suffix_cons_iff.mp hsuf with heqc | hsuf'
          · have hub : u = b := (List.cons_eq_cons.mp heqc).1
            rw [hub]
            have hsw : _cross q b p = -_cross b q p := by
              unfold _cross; ring
            rw [hsw]
            linarith
          · have humem : u ∈ rest := hsuf'.subset (by simp)
            have hub : lexLt u b := (List.pairwise_cons.mp
              ((List.pairwise_cons.mp hs).2)).1 u humem
            have hIHb : 0 ≤ _cross b u p := ih
              (hs.sublist (List.sublist_cons_self q _))
              (fun x hx => hlt x (List.mem_cons_of_mem q hx)) (turnsRev_tail ht)
              b (by simp) u K hpw
            have h1 : _cross u b p ≤ 0 := by
              have hsw : _cross u b p = -_cross b u p := by
                unfold _cross; ring
              rw [hsw]
              linarith
            have hres : _cross u q p ≤ 0 := skip_nonpos hub hbq hqp h1 hpop
            have hsw : _cross q u p = -_cross u q p := by
              unfold _cross; ring
            rw [hsw]
            linarith
        · exact ih (hs.sublist (List.sublist_cons_self a _))
            (fun x hx => hlt x (List.mem_cons_of_mem a hx)) (turnsRev_tail ht)
            q hq' u K hpw
      · rw [if_neg hc] at hpw
        have hstop : 0 ≤ _cross b a p := popTest_zero_stop (by
          rwa [Bool.not_eq_true] at hc)
        have hau : a = u := by injection hpw with h1 _
        subst hau
        have hchain : List.Chain' (fun x y => 0 ≤ _cross y x p) (a :: b :: rest) := by
          refine chain_edges_left p _ hs hlt ht ?_
          intro x y r hr
          have hax : a = x := by injection hr with h1 _
          have hby : b = y := by
            have h2 : b :: rest = y :: r := by injection hr with _ h2
            injection h2 with h2 _
          rw [← hax, ← hby]
          exact hstop
        exact chain_vertices_left p (b :: rest) a hs hlt hchain q hq

end HalfplaneInvariant


section HalfplaneAssembly

theorem lexLe_trans {a b c : Point} (h1 : lexLe a b) (h2 : lexLe b c) : lexLe a c := by
  rcases h1 with h1 | ⟨e1, h1⟩ <;> rcases h2 with h2 | ⟨e2, h2⟩
  · exact Or.inl (lt_trans h1 h2)
  · exact Or.inl (by rw [← e2]; exact h1)
  · exact Or.inl (by rw [e1]; exact h2)
  · exact Or.inr ⟨by rw [e1, e2], le_trans h1 h2⟩

theorem not_lexLt_of_lexLe {p q : Point} (h : lexLe p q) : ¬ lexLt q p := by
  rintro (h2 | ⟨e2, h2⟩) <;> rcases h with h1 | ⟨e1, h1⟩ <;> linarith

theorem lexLe_tie {p q : Point} (h : lexLe p q) (hx : q.1 ≤ p.1) :
    p.1 = q.1 ∧ p.2 ≤ q.2 := by
  rcases h with h | ⟨he, hy⟩
  · exact absurd hx (not_le.mpr h)
  · exact ⟨he, hy⟩

theorem bracket_of_mem :
    ∀ (T : List Point) (q : Point), T.Pairwise (fun x y => lexLt y x) →
      (∃ lo ∈ T, lexLe lo q) → (∃ hi ∈ T, lexLe q hi) →
      q ∈ T ∨ ∃ pre y x post, T = pre ++ y :: x :: post ∧ lexLt x q ∧ lexLt q y := by
  intro T
  induction T with
  | nil =>
    rintro q _ ⟨lo, hlo, -⟩ -
    exact absurd hlo (List.not_mem_nil lo)
  | cons y T ih =>
    rintro q hs ⟨lo, hlo, hloq⟩ ⟨hi, hhi, hqhi⟩
    have hhiy : lexLe hi y := by
      rcases List.mem_cons.mp hhi with rfl | hmem
      · exact lexLe_refl hi
      · exact lexLe_of_lexLt ((List.pairwise_cons.mp hs).1 hi hmem)
    have hqy : lexLe q y := lexLe_trans hqhi hhiy
    by_cases hqey : q = y
    · exact Or.inl (by rw [hqey]; simp)
    · have hqylt : lexLt q y := lexLt_of_lexLe_of_ne hqy hqey
      cases T with
      | nil =>
        have hloy : lo = y := by simpa using hlo
        rw [hloy] at hloq
        exact absurd hqylt (not_lexLt_of_lexLe hloq)
      | cons x T' =>
        by_cases hqex : q = x
        · exact Or.inl (by rw [hqex]; simp)
        · rcases lexLe_total x q with hxq | hqx
          · exact Or.inr ⟨[], y, x, T', rfl, lexLt_of_lexLe_of_ne hxq
              (fun h => hqex h.symm), hqylt⟩
          · have hlo' : lo ∈ x :: T' := by
              rcases List.mem_cons.mp hlo with rfl | hmem
              · exact absurd hqylt (not_lexLt_of_lexLe hloq)
              · exact hmem
            rcases ih q (hs.sublist (List.sublist_cons_self y _))
              ⟨lo, hlo', hloq⟩ ⟨x, by simp, hqx⟩ with hmem | hbr
            · exact Or.inl (List.mem_cons_of_mem y hmem)
            · obtain ⟨pre, y', x', post, heq, h1, h2⟩ := hbr
              exact Or.inr ⟨y :: pre, y', x', post, by rw [heq]; rfl, h1, h2⟩

theorem between_left {A P u w q : Point}
    (hAu : 0 ≤ _cross A P u) (hAw : 0 ≤ _cross A P w)
    (huw : lexLt u w) (huq : lexLe u q) (hqw : lexLe q w)
    (hAP : A.1 ≤ P.1) (huwq : 0 ≤ _cross u w q) : 0 ≤ _cross A P q := by
  have hux : u.1 ≤ q.1 := lexLe_x_le huq
  have hqx : q.1 ≤ w.1 := lexLe_x_le hqw
  rcases lt_or_eq_of_le (le_trans hux hqx) with hlt | heq
  · have key : (w.1 - u.1) * _cross A P q =
        (w.1 - q.1) * _cross A P u + (q.1 - u.1) * _cross A P w +
          (P.1 - A.1) * _cross u w q := by
      unfold _cross; ring
    nlinarith [mul_nonneg (show (0 : ℚ) ≤ w.1 - q.1 by linarith) hAu,
      mul_nonneg (show (0 : ℚ) ≤ q.1 - u.1 by linarith) hAw,
      mul_nonneg (show (0 : ℚ) ≤ P.1 - A.1 by linarith) huwq]
  · have hq1 : q.1 = u.1 := by
      have := lexLe_tie huq (by linarith)
      exact this.1.symm
    have hw1 : w.1 = u.1 := heq.symm
    obtain ⟨-, hy1⟩ := lexLe_tie huq (by rw [hq1])
    obtain ⟨-, hy2⟩ := lexLe_tie hqw (by rw [hq1, ← hw1])
    obtain ⟨-, hy3⟩ := lexLt_tie huw (by rw [hw1])
    have key : (w.2 - u.2) * _cross A P q =
        (w.2 - q.2) * _cross A P u + (q.2 - u.2) * _cross A P w := by
      unfold _cross
      rw [hq1, hw1]
      ring
    nlinarith [mul_nonneg (show (0 : ℚ) ≤ w.2 - q.2 by linarith) hAu,
      mul_nonneg (show (0 : ℚ) ≤ q.2 - u.2 by linarith) hAw]

theorem cross_rot (a b c : Point) : _cross a b c = _cross c a b := by
  unfold _cross; ring

theorem a5_invariant (ic : Bool) :
    ∀ done : List Point, done.Pairwise lexLt →
      ∀ q ∈ done, List.Chain' (fun x y => 0 ≤ _cross y x q) (chainRev ic 0 done) := by
  intro done
  induction done using List.reverseRecOn with
  | nil =>
    intro _ q hq
    exact absurd hq (List.not_mem_nil q)
  | append_singleton done p ih =>
    intro hs q hq
    have hdone : done.Pairwise lexLt :=
      hs.sublist (List.sublist_append_left done [p])
    have hltp : ∀ x ∈ done, lexLt x p := by
      have hsp := List.pairwise_append.mp hs
      intro x hx
      exact hsp.2.2 x hx p (by simp)
    rw [chainRev_append_singleton]
    show List.Chain' (fun x y => 0 ≤ _cross y x q)
      (p :: popWhile ic 0 p (chainRev ic 0 done))
    have hTs : (chainRev ic 0 done).Pairwise (fun x y => lexLt y x) :=
      chainRev_sortedDesc ic 0 hdone
    have hTturn : TurnsRev (fun a b c => 0 ≤ _cross a b c) (chainRev ic 0 done) :=
      turnsRev_imp (fun a b c h => popTest_zero_stop h) (turnsRev_chainRev ic 0 done)
    have hTsub : ∀ x ∈ chainRev ic 0 done, x ∈ done := by
      intro x hx
      have hx' : x ∈ (chainRev ic 0 done).reverse := by simpa using hx
      exact (chainRev_reverse_sublist ic 0 done).subset hx'
    have hTlt : ∀ x ∈ chainRev ic 0 done, lexLt x p := fun x hx => hltp x (hTsub x hx)
    rcases hS : popWhile ic 0 p (chainRev ic 0 done) with - | ⟨u, K⟩
    · simp
    · have hTne : chainRev ic 0 done ≠ [] := by
        intro h0
        rw [h0] at hS
        exact absurd hS.symm (by simp [popWhile])
      have humem : u ∈ chainRev ic 0 done := by
        have hsuf : u :: K <:+ chainRev ic 0 done := by
          rw [← hS]
          exact popWhile_suffix ic 0 p (chainRev ic 0 done)
        exact hsuf.subset (by simp)
      rcases List.mem_append.mp hq with hqd | hqp
      · have hIH : List.Chain' (fun x y => 0 ≤ _cross y x q) (chainRev ic 0 done) :=
          ih hdone q hqd
        rw [List.chain'_cons]
        constructor
        · by_cases hqT : q ∈ chainRev ic 0 done
          · have hqu := popWhile_head_edge ic p (chainRev ic 0 done) hTs hTlt hTturn
              q hqT u K hS
            rwa [← cross_rot] at hqu
          · obtain ⟨d0, dt, hdcons⟩ := List.exists_cons_of_ne_nil
              (show done ≠ [] from fun h0 => absurd (h0 ▸ hqd) (List.not_mem_nil q))
            obtain ⟨done', m, hdconc⟩ : ∃ done' m, done = done' ++ [m] := by
              rcases List.eq_nil_or_concat' done with h0 | ⟨d', m, h0⟩
              · exact absurd (h0 ▸ hqd) (List.not_mem_nil q)
              · exact ⟨d', m, h0⟩
            have hb0mem : d0 ∈ chainRev ic 0 done := by
              have hgl : (chainRev ic 0 done).getLast? = done.head? :=
                chainRev_getLast? ic 0 done (by rw [hdcons]; simp)
              have hgl2 : (chainRev ic 0 done).getLast? = some d0 := by
                rw [hgl, hdcons]
                rfl
              have hmem0 : (chainRev ic 0 done).getLast hTne ∈ chainRev ic 0 done :=
                List.getLast_mem hTne
              rwa [show (chainRev ic 0 done).getLast hTne = d0 from by
                have h3 := List.getLast?_eq_getLast _ hTne
                rw [h3] at hgl2
                exact Option.some.inj hgl2] at hmem0
            have hmmem : m ∈ chainRev ic 0 done := by
              have hh : (chainRev ic 0 done).head? = some m := by
                rw [hdconc]
                exact chainRev_head ic 0 done' m
              have : (chainRev ic 0 done).head hTne ∈ chainRev ic 0 done :=
                List.head_mem hTne
              rwa [show (chainRev ic 0 done).head hTne = m from by
                have := List.head?_eq_head hTne
                rw [this] at hh
                exact Option.some.inj hh] at this
            have hloq : lexLe d0 q := by
              rw [hdcons] at hqd
              rcases List.mem_cons.mp hqd with rfl | hmem
              · exact lexLe_refl q
              · refine lexLe_of_lexLt ?_
                rw [hdcons] at hdone
                exact (List.pairwise_cons.mp hdone).1 q hmem
            have hqhi : lexLe q m := by
              rw [hdconc] at hqd
              rcases List.mem_append.mp hqd with hmem | hmem
              · refine lexLe_of_lexLt ?_
                rw [hdconc] at hdone
                exact (List.pairwise_append.mp hdone).2.2 q hmem m (by simp)
              · have : q = m := by simpa using hmem
                rw [this]
                exact lexLe_refl m
            rcases bracket_of_mem (chainRev ic 0 done) q hTs ⟨d0, hb0mem, hloq⟩
              ⟨m, hmmem, hqhi⟩ with hmem | hbr
            · exact absurd hmem hqT
            · obtain ⟨pre, y, x, post, hTeq, hxq, hqy⟩ := hbr
              have hxmem : x ∈ chainRev ic 0 done := by rw [hTeq]; simp
              have hymem : y ∈ chainRev ic 0 done := by rw [hTeq]; simp
              have hedge : 0 ≤ _cross x y q := by
                have h1 := hIH
                rw [hTeq] at h1
                exact (List.chain'_cons.mp h1.right_of_append).1
              have hxu := popWhile_head_edge ic p (chainRev ic 0 done) hTs hTlt hTturn
                x hxmem u K hS
              have hyu := popWhile_head_edge ic p (chainRev ic 0 done) hTs hTlt hTturn
                y hymem u K hS
              have hxy : lexLt x y := by
                rw [hTeq] at hTs
                have h2 := (List.pairwise_append.mp hTs).2.1
                exact (List.pairwise_cons.mp h2).1 x (by simp)
              have hup : lexLt u p := hTlt u humem
              refine between_left (A := u) (P := p) ?_ ?_ hxy (lexLe_of_lexLt hxq)
                (lexLe_of_lexLt hqy) (lexLt_x_le hup) hedge
              · rwa [cross_rot]
              · rwa [cross_rot]
        · have hsuf : u :: K <:+ chainRev ic 0 done := by
            rw [← hS]
            exact popWhile_suffix ic 0 p (chainRev ic 0 done)
          exact hIH.suffix hsuf
      · have hqp' : q = p := by simpa using hqp
        subst hqp'
        rw [List.chain'_cons]
        constructor
        · exact le_of_eq (cross_degen_right u q).symm
        · have hsuf : u :: K <:+ chainRev ic 0 done := by
            rw [← hS]
            exact popWhile_suffix ic 0 q (chainRev ic 0 done)
          refine chain_edges_left q (u :: K) (hTs.sublist hsuf.sublist)
            (fun x hx => hTlt x (hsuf.subset hx))
            (turnsRev_of_suffix hsuf hTturn) ?_
          intro x y r hr
          rw [hr] at hS
          exact popTest_zero_stop (popWhile_stop ic 0 q hS)

end HalfplaneAssembly


section HalfplaneCorollaries

theorem a5_lower (ic : Bool) {done : List Point} (hs : done.Pairwise lexLt) :
    ∀ q ∈ done, List.Chain' (fun x y => 0 ≤ _cross x y q) (buildChain ic 0 done) := by
  intro q hq
  unfold buildChain
  rw [List.chain'_reverse]
  exact a5_invariant ic done hs q hq

theorem a5_upper (ic : Bool) {done : List Point}
    (hs : done.Pairwise (fun a b => lexLt b a)) :
    ∀ q ∈ done, List.Chain' (fun x y => 0 ≤ _cross x y q) (buildChain ic 0 done) := by
  intro q hq
  have hmap : (done.map negP).Pairwise lexLt := by
    rw [List.pairwise_map]
    exact hs.imp (fun h => lexLt_negP.mpr h)
  have h1 := a5_lower ic hmap (negP q) (List.mem_map_of_mem negP hq)
  rw [buildChain_map_negP, List.chain'_map] at h1
  refine h1.imp ?_
  intro a b h
  rwa [cross_negP] at h

theorem chain'_pair_of_append {R : Point → Point → Prop} {l pre post : List Point}
    {x y : Point} (h : List.Chain' R l) (he : l = pre ++ x :: y :: post) : R x y := by
  rw [he] at h
  exact (List.chain'_cons.mp h.right_of_append).1

end HalfplaneCorollaries


section CyclicPairs

theorem mem_zip_tail_of_chain' {P : Point → Point → Prop} :
    ∀ {L : List Point}, List.Chain' P L → ∀ e ∈ L.zip L.tail, P e.1 e.2 := by
  intro L
  induction L with
  | nil => intro _ e he; exact absurd he (List.not_mem_nil e)
  | cons x rest ih =>
    intro hch e he
    cases rest with
    | nil => exact absurd he (List.not_mem_nil e)
    | cons y rest' =>
      have he' : e ∈ (x, y) :: (y :: rest').zip (y :: rest').tail := he
      rcases List.mem_cons.mp he' with rfl | hmem
      · exact (List.chain'_cons.mp hch).1
      · exact ih (List.chain'_cons.mp hch).2 e hmem

theorem zip_concat_pairs :
    ∀ {l : List Point} (x : Point), l ≠ [] →
      l.zip (l.tail ++ [x]) = (l ++ [x]).zip ((l ++ [x]).tail) := by
  intro l
  induction l with
  | nil => intro x h; exact absurd rfl h
  | cons a t ih =>
    intro x _
    cases t with
    | nil => rfl
    | cons c t' =>
      exact congrArg (fun L => (a, c) :: L) (ih x (by simp))

theorem cyc_zip_eq (a b : Point) (A' B' : List Point) :
    ((a :: A') ++ (b :: B')).zip (((a :: A') ++ (b :: B')).rotate 1) =
      (a :: A').zip (A' ++ [b]) ++ (b :: B').zip (B' ++ [a]) := by
  have h1 : (a :: A') ++ (b :: B') = a :: (A' ++ b :: B') := rfl
  rw [h1, List.rotate_cons_succ, List.rotate_zero]
  have h2 : (A' ++ b :: B') ++ [a] = (A' ++ [b]) ++ (B' ++ [a]) := by simp
  rw [h2]
  have h3 : a :: (A' ++ b :: B') = (a :: A') ++ (b :: B') := rfl
  rw [h3]
  exact List.zip_append (by simp)

theorem a5_candidate (ic : Bool) (pts : List Point)
    (hn : 2 ≤ (sortedUniq pts).length) :
    ∀ q ∈ sortedUniq pts, ∀ e ∈ (candidateHull ic 0 (sortedUniq pts)).zip
      ((candidateHull ic 0 (sortedUniq pts)).rotate 1), 0 ≤ _cross e.1 e.2 q := by
  intro q hq e he
  have hune : sortedUniq pts ≠ [] := by
    intro h0; rw [h0] at hn; simp at hn
  have hL2 : 2 ≤ (buildChain ic 0 (sortedUniq pts)).length :=
    buildChain_length_ge_two ic 0 _ hn
  have hU2 : 2 ≤ (buildChain ic 0 (sortedUniq pts).reverse).length :=
    buildChain_length_ge_two ic 0 _ (by simpa using hn)
  have hLdne : (buildChain ic 0 (sortedUniq pts)).dropLast ≠ [] := by
    have : (buildChain ic 0 (sortedUniq pts)).dropLast.length =
        (buildChain ic 0 (sortedUniq pts)).length - 1 := List.length_dropLast _
    intro h0
    rw [h0] at this
    simp at this
    omega
  have hUdne : (buildChain ic 0 (sortedUniq pts).reverse).dropLast ≠ [] := by
    have : (buildChain ic 0 (sortedUniq pts).reverse).dropLast.length =
        (buildChain ic 0 (sortedUniq pts).reverse).length - 1 := List.length_dropLast _
    intro h0
    rw [h0] at this
    simp at this
    omega
  obtain ⟨a, A', hA⟩ := List.exists_cons_of_ne_nil hLdne
  obtain ⟨b, B', hB⟩ := List.exists_cons_of_ne_nil hUdne
  have hLne : buildChain ic 0 (sortedUniq pts) ≠ [] := by
    intro h0
    rw [h0] at hL2
    simp at hL2
  have hUne : buildChain ic 0 (sortedUniq pts).reverse ≠ [] := by
    intro h0
    rw [h0] at hU2
    simp at hU2
  -- a is the head of L hence of uniq; b is the head of U hence the last of uniq
  have hahead : (buildChain ic 0 (sortedUniq pts)).head? = some a := by
    rw [← head?_dropLast hL2, hA]
    rfl
  have hbhead : (buildChain ic 0 (sortedUniq pts).reverse).head? = some b := by
    rw [← head?_dropLast hU2, hB]
    rfl
  have haL : (sortedUniq pts).head? = some a := by
    rw [← buildChain_head ic 0 _ hune]
    exact hahead
  have hbU : (sortedUniq pts).getLast? = some b := by
    rw [← List.head?_reverse, ← buildChain_head ic 0 _ (by simpa using hune)]
    exact hbhead
  -- L ends with b, U ends with a
  have hLlast : (buildChain ic 0 (sortedUniq pts)).getLast? = some b := by
    rw [buildChain_getLast? ic 0 hune]
    exact hbU
  have hUlast : (buildChain ic 0 (sortedUniq pts).reverse).getLast? = some a := by
    rw [buildChain_getLast? ic 0 (by simpa using hune), List.getLast?_reverse]
    exact haL
  have hLrec : (buildChain ic 0 (sortedUniq pts)).dropLast ++ [b] =
      buildChain ic 0 (sortedUniq pts) := by
    have hgb : (buildChain ic 0 (sortedUniq pts)).getLast hLne = b := by
      have h3 := List.getLast?_eq_getLast _ hLne
      rw [h3] at hLlast
      exact Option.some.inj hLlast
    conv_rhs => rw [← List.dropLast_append_getLast hLne]
    rw [hgb]
  have hUrec : (buildChain ic 0 (sortedUniq pts).reverse).dropLast ++ [a] =
      buildChain ic 0 (sortedUniq pts).reverse := by
    have hga : (buildChain ic 0 (sortedUniq pts).reverse).getLast hUne = a := by
      have h3 := List.getLast?_eq_getLast _ hUne
      rw [h3] at hUlast
      exact Option.some.inj hUlast
    conv_rhs => rw [← List.dropLast_append_getLast hUne]
    rw [hga]
  -- decompose the cyclic pairs
  have hcand : candidateHull ic 0 (sortedUniq pts) = (a :: A') ++ (b :: B') := by
    unfold candidateHull
    rw [hA, hB]
  rw [hcand] at he
  rw [cyc_zip_eq] at he
  rcases List.mem_append.mp he with heL | heU
  · -- a lower-chain pair
    have heL' : e ∈ (buildChain ic 0 (sortedUniq pts)).zip
        (buildChain ic 0 (sortedUniq pts)).tail := by
      have h4 : (a :: A').zip (A' ++ [b]) =
          ((a :: A') ++ [b]).zip (((a :: A') ++ [b]).tail) := by
        exact zip_concat_pairs b (by simp)
      rw [h4, ← hA, hLrec] at heL
      exact heL
    have hch : List.Chain' (fun x y => 0 ≤ _cross x y q) (buildChain ic 0 (sortedUniq pts)) :=
      a5_lower ic (pairwise_lexLt_sortedUniq pts) q hq
    exact mem_zip_tail_of_chain' hch e heL'
  · -- an upper-chain pair
    have heU' : e ∈ (buildChain ic 0 (sortedUniq pts).reverse).zip
        (buildChain ic 0 (sortedUniq pts).reverse).tail := by
      have h4 : (b :: B').zip (B' ++ [a]) =
          ((b :: B') ++ [a]).zip (((b :: B') ++ [a]).tail) := by
        exact zip_concat_pairs a (by simp)
      rw [h4, ← hB, hUrec] at heU
      exact heU
    have hch : List.Chain' (fun x y => 0 ≤ _cross x y q)
        (buildChain ic 0 (sortedUniq pts).reverse) := by
      refine a5_upper ic ?_ q (by simpa using hq)
      rw [List.pairwise_reverse]
      exact pairwise_lexLt_sortedUniq pts
    exact mem_zip_tail_of_chain' hch e heU'

end CyclicPairs


section Claim1

/-- Claim C1, amended: with an exact tolerance (`eps = 0`), every input point
lies inside or on the boundary of the polygon returned by corners-only mode
(it is weakly to the left of every directed edge, cyclically). -/
theorem claim1_amended (pts : List Point) :
    ∀ p ∈ pts, onOrInside (convex_hull pts false 0) p = true := by
  intro p hp
  have hune : sortedUniq pts ≠ [] := sortedUniq_ne_nil (by
    intro h0
    rw [h0] at hp
    exact absurd hp (List.not_mem_nil p))
  have hpu : p ∈ sortedUniq pts := mem_sortedUniq.mpr hp
  rw [convex_hull_def]
  by_cases h1 : (sortedUniq pts).length ≤ 1
  · rw [if_pos h1]
    obtain ⟨u, t, hu⟩ := List.exists_cons_of_ne_nil hune
    have ht : t = [] := by
      rw [hu] at h1
      simp only [List.length_cons] at h1
      exact List.length_eq_zero.mp (by omega)
    subst ht
    rw [hu]
    unfold onOrInside
    rw [List.rotate_cons_succ, List.rotate_zero]
    simp [cross_self_left]
  · rw [if_neg h1]
    rw [if_neg (by simp)]
    have hn2 : 2 ≤ (sortedUniq pts).length := by omega
    rw [if_neg (fun h0 => candidateHull_ne_nil false 0 hn2 (List.length_eq_zero.mp h0))]
    simp only [onOrInside, List.all_eq_true, decide_eq_true_eq]
    intro e he
    exact a5_candidate false pts hn2 p hpu e he

theorem claim1_witness :
    onOrInside (convex_hull [((0 : ℚ), (0 : ℚ)), (2, 1)] false 0) ((0 : ℚ), (0 : ℚ)) = true :=
  claim1_amended [((0 : ℚ), (0 : ℚ)), (2, 1)] ((0 : ℚ), (0 : ℚ)) (by norm_num)

end Claim1


section CyclicSum

theorem cyc_cross_sum_aux (q : Point) :
    ∀ (t : List Point) (a c : Point),
      (((a :: t).zip (t ++ [c])).map (fun e => _cross q e.1 e.2)).sum =
        (((a :: t).zip (t ++ [c])).map (fun e => e.1.1 * e.2.2 - e.1.2 * e.2.1)).sum
          + (q.1 * a.2 - q.2 * a.1) - (q.1 * c.2 - q.2 * c.1) := by
  intro t
  induction t with
  | nil =>
    intro a c
    simp [_cross]
    ring
  | cons b t' ih =>
    intro a c
    have h1 : ((a :: b :: t').zip ((b :: t') ++ [c])) =
        (a, b) :: ((b :: t').zip (t' ++ [c])) := rfl
    rw [h1]
    simp only [List.map_cons, List.sum_cons]
    rw [ih b c]
    unfold _cross
    ring

theorem cyc_cross_sum (q : Point) (l : List Point) (h3 : 3 ≤ l.length) :
    ((l.zip (l.rotate 1)).map (fun e => _cross q e.1 e.2)).sum = _polygon_area2 l := by
  obtain ⟨a, t, rfl⟩ := List.exists_cons_of_ne_nil (l := l) (by
    intro hc
    rw [hc] at h3
    simp at h3)
  have hrot : (a :: t).rotate 1 = t ++ [a] := by
    rw [List.rotate_cons_succ, List.rotate_zero]
  rw [hrot, cyc_cross_sum_aux q t a a]
  unfold _polygon_area2
  rw [if_neg (by omega), hrot]
  ring

theorem all_zero_of_sum_zero :
    ∀ (L : List ℚ), (∀ x ∈ L, 0 ≤ x) → L.sum = 0 → ∀ x ∈ L, x = 0 := by
  intro L
  induction L with
  | nil => intro _ _ x hx; exact absurd hx (List.not_mem_nil x)
  | cons a L ih =>
    intro hpos hsum x hx
    have hrest : 0 ≤ L.sum := List.sum_nonneg (fun y hy => hpos y (by simp [hy]))
    have ha : 0 ≤ a := hpos a (by simp)
    rw [List.sum_cons] at hsum
    rcases List.mem_cons.mp hx with rfl | hx'
    · linarith
    · exact ih (fun y hy => hpos y (by simp [hy])) (by linarith) x hx'

theorem sum_pos_of_nonneg_of_mem :
    ∀ (L : List ℚ), (∀ x ∈ L, 0 ≤ x) → (∃ x ∈ L, 0 < x) → 0 < L.sum := by
  intro L
  induction L with
  | nil => rintro _ ⟨x, hx, -⟩; exact absurd hx (List.not_mem_nil x)
  | cons a L ih =>
    rintro hpos ⟨x, hx, hxpos⟩
    rw [List.sum_cons]
    have hrest : 0 ≤ L.sum := List.sum_nonneg (fun y hy => hpos y (by simp [hy]))
    rcases List.mem_cons.mp hx with rfl | hx'
    · linarith
    · have := ih (fun y hy => hpos y (by simp [hy])) ⟨x, hx', hxpos⟩
      have ha : 0 ≤ a := hpos a (by simp)
      linarith

end CyclicSum

section LineLemmas

theorem cross_transfer_x (A B u v q : Point) :
    (B.1 - A.1) * _cross u v q = (v.1 - u.1) * _cross A B q +
      (q.1 - v.1) * _cross A B u + (u.1 - q.1) * _cross A B v := by
  unfold _cross
  ring

theorem cross_transfer_y (A B u v q : Point) :
    (B.2 - A.2) * _cross u v q = (v.2 - u.2) * _cross A B q +
      (q.2 - v.2) * _cross A B u + (u.2 - q.2) * _cross A B v := by
  unfold _cross
  ring

theorem three_on_line {A B u v q : Point} (hAB : A ≠ B)
    (hu : _cross A B u = 0) (hv : _cross A B v = 0) (hq : _cross A B q = 0) :
    _cross u v q = 0 := by
  have hx := cross_transfer_x A B u v q
  have hy := cross_transfer_y A B u v q
  rw [hu, hv, hq] at hx hy
  simp at hx hy
  rcases hx with hx | hx
  · rcases hy with hy | hy
    · exfalso
      exact hAB (Prod.ext (by linarith) (by linarith))
    · exact hy
  · exact hx

theorem exists_param_of_cross_zero {c M r : Point} (hne : c ≠ M)
    (h : _cross c M r = 0) :
    ∃ t : ℚ, r = (c.1 + t * (M.1 - c.1), c.2 + t * (M.2 - c.2)) := by
  have h2 : (M.1 - c.1) * (r.2 - c.2) = (M.2 - c.2) * (r.1 - c.1) := by
    unfold _cross at h
    linarith [h]
  by_cases hx : M.1 - c.1 = 0
  · have hy : M.2 - c.2 ≠ 0 := fun hy0 => hne (Prod.ext (by linarith) (by linarith))
    have hr1 : r.1 = c.1 := by
      have h3 : (M.2 - c.2) * (r.1 - c.1) = 0 := by rw [← h2, hx]; ring
      rcases mul_eq_zero.mp h3 with h4 | h4
      · exact absurd h4 hy
      · linarith
    refine ⟨(r.2 - c.2) / (M.2 - c.2), Prod.ext ?_ ?_⟩
    · show r.1 = c.1 + (r.2 - c.2) / (M.2 - c.2) * (M.1 - c.1)
      rw [hx, hr1]
      ring
    · show r.2 = c.2 + (r.2 - c.2) / (M.2 - c.2) * (M.2 - c.2)
      field_simp
  · refine ⟨(r.1 - c.1) / (M.1 - c.1), Prod.ext ?_ ?_⟩
    · show r.1 = c.1 + (r.1 - c.1) / (M.1 - c.1) * (M.1 - c.1)
      field_simp
    · show r.2 = c.2 + (r.1 - c.1) / (M.1 - c.1) * (M.2 - c.2)
      have h3 : r.2 - c.2 = (r.1 - c.1) / (M.1 - c.1) * (M.2 - c.2) := by
        rw [div_mul_eq_mul_div, eq_div_iff hx]
        linear_combination h2
      linarith [h3]

theorem onCommonLine_of_base {base1 base2 : Point} {pts : List Point}
    (hne : base1 ≠ base2)
    (h : ∀ r ∈ pts, _cross base1 base2 r = 0) : OnCommonLine pts := by
  refine ⟨base1, (base2.1 - base1.1, base2.2 - base1.2), ?_⟩
  intro p hp
  obtain ⟨t, ht⟩ := exists_param_of_cross_zero hne (h p hp)
  exact ⟨t, ht⟩

end LineLemmas


section Winding

theorem winding_ident (v w a b : Point) :
    tproj v w a * _cross v w b - tproj v w b * _cross v w a =
      ((w.1 - v.1) ^ 2 + (w.2 - v.2) ^ 2) * _cross a b v := by
  unfold tproj _cross
  ring

theorem chain'_of_forall_zip {P : Point → Point → Prop} :
    ∀ {L : List Point}, (∀ e ∈ L.zip L.tail, P e.1 e.2) → List.Chain' P L := by
  intro L
  induction L with
  | nil => intro _; trivial
  | cons x rest ih =>
    intro hp
    cases rest with
    | nil => simp
    | cons y rest' =>
      rw [List.chain'_cons]
      refine ⟨hp (x, y) (by simp), ih ?_⟩
      intro e he
      exact hp e (List.mem_cons_of_mem (x, y) he)

theorem pair_mem_zip_of_append {x y : Point} :
    ∀ {pre l post : List Point}, l = pre ++ x :: y :: post → (x, y) ∈ l.zip l.tail := by
  intro pre
  induction pre with
  | nil =>
    intro l post hl
    subst hl
    simp
  | cons a pre' ih =>
    intro l post hl
    subst hl
    have hmem : (x, y) ∈ (pre' ++ x :: y :: post).zip (pre' ++ x :: y :: post).tail :=
      ih rfl
    rcases hcons : (pre' ++ x :: y :: post) with - | ⟨c, t₂⟩
    · exact absurd hcons (by simp)
    · show (x, y) ∈ (a :: (pre' ++ x :: y :: post)).zip (pre' ++ x :: y :: post)
      rw [hcons]
      refine List.mem_cons_of_mem (a, c) ?_
      rw [hcons] at hmem
      exact hmem

theorem chain'_head_last {R : Point → Point → Prop}
    (htr : ∀ a b c, R a b → R b c → R a c) :
    ∀ {l : List Point} {a b : Point}, List.Chain' R l → l.head? = some a →
      l.getLast? = some b → 2 ≤ l.length → R a b := by
  intro l
  induction l with
  | nil => intro a b _ _ _ hlen; simp at hlen
  | cons x rest ih =>
    intro a b hch hhead hlast hlen
    have hax : x = a := by simpa using hhead
    subst hax
    cases rest with
    | nil => simp at hlen
    | cons y rest' =>
      have hxy : R x y := (List.chain'_cons.mp hch).1
      cases rest' with
      | nil =>
        have hby : y = b := by simpa using hlast
        subst hby
        exact hxy
      | cons z rest'' =>
        have hyb : R y b := by
          refine ih (List.chain'_cons.mp hch).2 rfl ?_ (by simp)
          rw [← hlast]
          exact (List.getLast?_cons_cons).symm
        exact htr x y b hxy hyb

theorem winding {h : List Point} {v w : Point} (hne : h ≠ []) (hvw : v ≠ w)
    (hstrict : ∀ e ∈ h.zip (h.rotate 1), 0 < _cross e.1 e.2 v)
    (hleft : ∀ x ∈ h, 0 ≤ _cross v w x) : False := by
  obtain ⟨x₀, t, rfl⟩ := List.exists_cons_of_ne_nil hne
  have hrot : (x₀ :: t).rotate 1 = t ++ [x₀] := by
    rw [List.rotate_cons_succ, List.rotate_zero]
  rw [hrot] at hstrict
  have hzeq : (x₀ :: t).zip (t ++ [x₀]) =
      ((x₀ :: t) ++ [x₀]).zip (((x₀ :: t) ++ [x₀]).tail) :=
    zip_concat_pairs x₀ (by simp)
  have hD : 0 < (w.1 - v.1) ^ 2 + (w.2 - v.2) ^ 2 := by
    have hne' : ¬ (v.1 = w.1 ∧ v.2 = w.2) := by
      intro hc
      exact hvw (Prod.ext hc.1 hc.2)
    rcases not_and_or.mp hne' with h1 | h1
    · have h2 : w.1 - v.1 ≠ 0 := fun h0 => h1 (by linarith)
      nlinarith [sq_nonneg (w.2 - v.2), pow_two_pos_of_ne_zero h2]
    · have h2 : w.2 - v.2 ≠ 0 := fun h0 => h1 (by linarith)
      nlinarith [sq_nonneg (w.1 - v.1), pow_two_pos_of_ne_zero h2]
  have hQ : ∀ a b, (a, b) ∈ ((x₀ :: t) ++ [x₀]).zip (((x₀ :: t) ++ [x₀]).tail) →
      0 < tproj v w a * _cross v w b - tproj v w b * _cross v w a := by
    intro a b he
    rw [← hzeq] at he
    rw [winding_ident]
    exact mul_pos hD (hstrict (a, b) he)
  have hmemh : ∀ x ∈ (x₀ :: t) ++ [x₀], x ∈ x₀ :: t := by
    intro x hx
    rcases List.mem_append.mp hx with hx | hx
    · exact hx
    · simp at hx
      simp [hx]
  by_cases hallpos : ∀ x ∈ x₀ :: t, 0 < _cross v w x
  · have hch : List.Chain' (fun a b =>
        tproj v w b / _cross v w b < tproj v w a / _cross v w a)
        ((x₀ :: t) ++ [x₀]) := by
      refine chain'_of_forall_zip ?_
      intro e he
      obtain ⟨a, b⟩ := e
      obtain ⟨hamem, hbmem⟩ := List.of_mem_zip he
      have h1 := hQ a b he
      have hsa : 0 < _cross v w a := hallpos a (hmemh a hamem)
      have hsb : 0 < _cross v w b :=
        hallpos b (hmemh b ((List.tail_sublist _).subset hbmem))
      show tproj v w b / _cross v w b < tproj v w a / _cross v w a
      rw [div_lt_div_iff₀ hsb hsa]
      nlinarith [h1]
    have hRR : tproj v w x₀ / _cross v w x₀ < tproj v w x₀ / _cross v w x₀ := by
      refine chain'_head_last ?_ hch rfl ?_ (by simp)
      · intro a b c h1 h2
        exact lt_trans h2 h1
      · rw [List.getLast?_concat]
    exact absurd hRR (lt_irrefl _)
  · push_neg at hallpos
    obtain ⟨x, hxmem, hxle⟩ := hallpos
    have hsx : _cross v w x = 0 := le_antisymm hxle (hleft x hxmem)
    obtain ⟨pre, post, hsplit⟩ := List.append_of_mem hxmem
    obtain ⟨y, post', hy⟩ : ∃ y post', post ++ [x₀] = y :: post' := by
      rcases post with - | ⟨y, p'⟩
      · exact ⟨x₀, [], rfl⟩
      · exact ⟨y, p' ++ [x₀], rfl⟩
    have hysh : (x₀ :: t) ++ [x₀] = pre ++ x :: y :: post' := by
      rw [hsplit]
      simp [hy]
    have hxy : (x, y) ∈ ((x₀ :: t) ++ [x₀]).zip (((x₀ :: t) ++ [x₀]).tail) :=
      pair_mem_zip_of_append hysh
    have hymem : y ∈ x₀ :: t := by
      have hy2 : y ∈ post ++ [x₀] := by rw [hy]; simp
      rcases List.mem_append.mp hy2 with h4 | h4
      · rw [hsplit]
        refine List.mem_append.mpr (Or.inr ?_)
        simp [h4]
      · simp at h4
        simp [h4]
    -- a predecessor pair (z, x)
    obtain ⟨z, hzmem, hzx⟩ : ∃ z, z ∈ x₀ :: t ∧
        (z, x) ∈ ((x₀ :: t) ++ [x₀]).zip (((x₀ :: t) ++ [x₀]).tail) := by
      rcases pre with - | ⟨p, pre₂⟩
      · -- x = x₀
        have hx0 : x₀ = x := by
          have := hsplit
          simp at this
          exact this.1
      -- t = post
        have htpost : t = post := by
          have := hsplit
          simp at this
          exact this.2
        rcases List.eq_nil_or_concat' t with ht0 | ⟨t'', z, ht⟩
        · -- h' = [x₀, x₀] : the unique pair (x₀, x₀) is self-contradictory
          exfalso
          subst ht0
          have hpair := hQ x₀ x₀ (by simp)
          simp at hpair
        · refine ⟨z, by rw [ht]; simp, ?_⟩
          refine @pair_mem_zip_of_append _ _ (x₀ :: t'') _ [] ?_
          rw [ht, ← hx0]
          simp
      · rcases List.eq_nil_or_concat' (p :: pre₂) with h0 | ⟨pre₃, z, hpre⟩
        · exact absurd h0 (by simp)
        · refine ⟨z, ?_, ?_⟩
          · have : z ∈ x₀ :: t := by
              rw [hsplit, hpre]
              refine List.mem_append.mpr (Or.inl ?_)
              simp
            exact this
          · refine @pair_mem_zip_of_append _ _ pre₃ _ (y :: post') ?_
            rw [hysh, hpre]
            simp
    have hQy := hQ x y hxy
    have hQz := hQ z x hzx
    rw [hsx] at hQy hQz
    have h2 : 0 < tproj v w x * _cross v w y := by nlinarith [hQy]
    have h1 : tproj v w x * _cross v w z < 0 := by nlinarith [hQz]
    have hsy : 0 ≤ _cross v w y := hleft y hymem
    have hsz : 0 ≤ _cross v w z := hleft z hzmem
    have htx : tproj v w x < 0 := by
      by_contra hge
      push_neg at hge
      nlinarith [mul_nonneg hge hsz]
    nlinarith [mul_nonpos_of_nonpos_of_nonneg (le_of_lt htx) hsy]

end Winding


section Claim3Support

theorem candidateHull_subset (ic : Bool) (eps : ℚ) (u : List Point) :
    ∀ q ∈ candidateHull ic eps u, q ∈ u := by
  intro q hq
  unfold candidateHull at hq
  rcases List.mem_append.mp hq with h | h
  · exact (buildChain_sublist ic eps _).subset (List.dropLast_subset _ h)
  · have := (buildChain_sublist ic eps _).subset (List.dropLast_subset _ h)
    simpa using this

theorem exists_next_of_mem_dropLast :
    ∀ {l : List Point} {q : Point}, q ∈ l.dropLast →
      ∃ y pre post, l = pre ++ q :: y :: post := by
  intro l
  induction l with
  | nil => intro q hq; exact absurd hq (List.not_mem_nil q)
  | cons a rest ih =>
    intro q hq
    cases rest with
    | nil => exact absurd hq (List.not_mem_nil q)
    | cons b rest' =>
      have hdl : (a :: b :: rest').dropLast = a :: (b :: rest').dropLast := rfl
      rw [hdl] at hq
      rcases List.mem_cons.mp hq with hqa | hq'
      · subst hqa
        exact ⟨b, [], rest', rfl⟩
      · obtain ⟨y, pre, post, heq⟩ := ih hq'
        exact ⟨y, a :: pre, post, by rw [heq]; rfl⟩

theorem pairwise_rel_of_append {R : Point → Point → Prop} {l pre post : List Point}
    {x y : Point} (hp : l.Pairwise R) (he : l = pre ++ x :: y :: post) : R x y := by
  have hsub : List.Sublist [x, y] l := by
    rw [he]
    refine List.Sublist.trans ?_ (List.suffix_append pre (x :: y :: post)).sublist
    exact List.Sublist.cons₂ x (List.Sublist.cons₂ y (List.nil_sublist post))
  have := hp.sublist hsub
  exact (List.pairwise_cons.mp this).1 y (by simp)

theorem buildChain_pairwise (ic : Bool) (eps : ℚ) {done : List Point}
    (hs : done.Pairwise lexLt) : (buildChain ic eps done).Pairwise lexLt :=
  hs.sublist (buildChain_sublist ic eps done)

theorem ratAbs_nonpos {x : ℚ} (h : ratAbs x ≤ 0) : x = 0 := by
  unfold ratAbs at h
  by_cases hx : x < 0
  · rw [if_pos hx] at h
    linarith
  · rw [if_neg hx] at h
    push_neg at hx
    linarith

theorem strictlyInside_singleton (u q : Point) : strictlyInside [u] q = false := by
  unfold strictlyInside
  rw [List.rotate_cons_succ, List.rotate_zero]
  simp [cross_self_left]

theorem edge_of_mem_candidate (ic : Bool) (pts : List Point) {q : Point}
    (hq : q ∈ candidateHull ic 0 (sortedUniq pts)) :
    ∃ y, q ≠ y ∧ ∀ r ∈ sortedUniq pts, 0 ≤ _cross q y r := by
  unfold candidateHull at hq
  rcases List.mem_append.mp hq with h | h
  · obtain ⟨y, pre, post, heq⟩ := exists_next_of_mem_dropLast h
    have hpw : (buildChain ic 0 (sortedUniq pts)).Pairwise lexLt :=
      buildChain_pairwise ic 0 (pairwise_lexLt_sortedUniq pts)
    have hqy : lexLt q y := pairwise_rel_of_append hpw heq
    refine ⟨y, fun hc => lexLt_irrefl y (hc ▸ hqy), ?_⟩
    intro r hr
    exact chain'_pair_of_append
      (a5_lower ic (pairwise_lexLt_sortedUniq pts) r hr) heq
  · obtain ⟨y, pre, post, heq⟩ := exists_next_of_mem_dropLast h
    have hpw : (buildChain ic 0 (sortedUniq pts).reverse).Pairwise
        (fun a b => lexLt b a) := by
      refine List.Pairwise.sublist (buildChain_sublist ic 0 _) ?_
      rw [List.pairwise_reverse]
      exact pairwise_lexLt_sortedUniq pts
    have hqy : lexLt y q := pairwise_rel_of_append (R := fun a b => lexLt b a) hpw heq
    refine ⟨y, fun hc => lexLt_irrefl y (hc ▸ hqy), ?_⟩
    intro r hr
    exact chain'_pair_of_append (a5_upper ic (by
      rw [List.pairwise_reverse]
      exact pairwise_lexLt_sortedUniq pts) r (by simpa using hr)) heq

end Claim3Support


section CandidateStructure

theorem candidate_decomp (ic : Bool) (pts : List Point)
    (hn : 2 ≤ (sortedUniq pts).length) :
    ∃ a A' b B', (buildChain ic 0 (sortedUniq pts)).dropLast = a :: A' ∧
      (buildChain ic 0 (sortedUniq pts).reverse).dropLast = b :: B' ∧
      (sortedUniq pts).head? = some a ∧ (sortedUniq pts).getLast? = some b ∧
      (buildChain ic 0 (sortedUniq pts)).dropLast ++ [b] =
        buildChain ic 0 (sortedUniq pts) ∧
      (buildChain ic 0 (sortedUniq pts).reverse).dropLast ++ [a] =
        buildChain ic 0 (sortedUniq pts).reverse := by
  have hune : sortedUniq pts ≠ [] := by
    intro h0; rw [h0] at hn; simp at hn
  have hL2 : 2 ≤ (buildChain ic 0 (sortedUniq pts)).length :=
    buildChain_length_ge_two ic 0 _ hn
  have hU2 : 2 ≤ (buildChain ic 0 (sortedUniq pts).reverse).length :=
    buildChain_length_ge_two ic 0 _ (by simpa using hn)
  have hLdne : (buildChain ic 0 (sortedUniq pts)).dropLast ≠ [] := by
    have hlen : (buildChain ic 0 (sortedUniq pts)).dropLast.length =
        (buildChain ic 0 (sortedUniq pts)).length - 1 := List.length_dropLast _
    intro h0
    rw [h0] at hlen
    simp at hlen
    omega
  have hUdne : (buildChain ic 0 (sortedUniq pts).reverse).dropLast ≠ [] := by
    have hlen : (buildChain ic 0 (sortedUniq pts).reverse).dropLast.length =
        (buildChain ic 0 (sortedUniq pts).reverse).length - 1 := List.length_dropLast _
    intro h0
    rw [h0] at hlen
    simp at hlen
    omega
  obtain ⟨a, A', hA⟩ := List.exists_cons_of_ne_nil hLdne
  obtain ⟨b, B', hB⟩ := List.exists_cons_of_ne_nil hUdne
  have hLne : buildChain ic 0 (sortedUniq pts) ≠ [] := by
    intro h0; rw [h0] at hL2; simp at hL2
  have hUne : buildChain ic 0 (sortedUniq pts).reverse ≠ [] := by
    intro h0; rw [h0] at hU2; simp at hU2
  have hahead : (buildChain ic 0 (sortedUniq pts)).head? = some a := by
    rw [← head?_dropLast hL2, hA]
    rfl
  have hbhead : (buildChain ic 0 (sortedUniq pts).reverse).head? = some b := by
    rw [← head?_dropLast hU2, hB]
    rfl
  have haL : (sortedUniq pts).head? = some a := by
    rw [← buildChain_head ic 0 _ hune]
    exact hahead
  have hbU : (sortedUniq pts).getLast? = some b := by
    rw [← List.head?_reverse, ← buildChain_head ic 0 _ (by simpa using hune)]
    exact hbhead
  have hLlast : (buildChain ic 0 (sortedUniq pts)).getLast? = some b := by
    rw [buildChain_getLast? ic 0 hune]
    exact hbU
  have hUlast : (buildChain ic 0 (sortedUniq pts).reverse).getLast? = some a := by
    rw [buildChain_getLast? ic 0 (by simpa using hune), List.getLast?_reverse]
    exact haL
  refine ⟨a, A', b, B', hA, hB, haL, hbU, ?_, ?_⟩
  · have hgb : (buildChain ic 0 (sortedUniq pts)).getLast hLne = b := by
      have h3 := List.getLast?_eq_getLast _ hLne
      rw [h3] at hLlast
      exact Option.some.inj hLlast
    conv_rhs => rw [← List.dropLast_append_getLast hLne]
    rw [hgb]
  · have hga : (buildChain ic 0 (sortedUniq pts).reverse).getLast hUne = a := by
      have h3 := List.getLast?_eq_getLast _ hUne
      rw [h3] at hUlast
      exact Option.some.inj hUlast
    conv_rhs => rw [← List.dropLast_append_getLast hUne]
    rw [hga]

theorem collinear_of_true_area_zero (pts : List Point)
    (hn : 2 ≤ (sortedUniq pts).length)
    (h0 : _polygon_area2 (candidateHull true 0 (sortedUniq pts)) = 0) :
    ∃ e1 e2 : Point, e1 ≠ e2 ∧ ∀ r ∈ sortedUniq pts, _cross e1 e2 r = 0 := by
  obtain ⟨a, A', b, B', hA, hB, ha, hb, hLrec, hUrec⟩ := candidate_decomp true pts hn
  have hcand : candidateHull true 0 (sortedUniq pts) = (a :: A') ++ (b :: B') := by
    unfold candidateHull
    rw [hA, hB]
  have hzero : ∀ e ∈ (candidateHull true 0 (sortedUniq pts)).zip
      ((candidateHull true 0 (sortedUniq pts)).rotate 1),
      ∀ r ∈ sortedUniq pts, _cross e.1 e.2 r = 0 := by
    intro e he r hr
    by_cases h3 : 3 ≤ (candidateHull true 0 (sortedUniq pts)).length
    · have hsum := cyc_cross_sum r _ h3
      rw [h0] at hsum
      have hterm := all_zero_of_sum_zero _ (by
          intro x hx
          obtain ⟨e', he', rfl⟩ := List.mem_map.mp hx
          rw [cross_cyclic]
          exact a5_candidate true pts hn r hr e' he')
        hsum (_cross r e.1 e.2) (List.mem_map_of_mem _ he)
      rwa [cross_cyclic] at hterm
    · have hlens : A'.length + B'.length = 0 := by
        rw [hcand] at h3
        push_neg at h3
        simp only [List.length_append, List.length_cons] at h3
        omega
      have hA0 : A' = [] := List.length_eq_zero.mp (by omega)
      have hB0 : B' = [] := List.length_eq_zero.mp (by omega)
      subst hA0
      subst hB0
      have hCval : candidateHull true 0 (sortedUniq pts) = [a, b] := by
        simpa using hcand
      rw [hCval] at he
      have hrot2 : ([a, b] : List Point).rotate 1 = [b, a] := by
        rw [List.rotate_cons_succ, List.rotate_zero]
        rfl
      rw [hrot2] at he
      have h1 : 0 ≤ _cross a b r := by
        refine a5_candidate true pts hn r hr (a, b) ?_
        rw [hCval, hrot2]
        simp
      have h2 : 0 ≤ _cross b a r := by
        refine a5_candidate true pts hn r hr (b, a) ?_
        rw [hCval, hrot2]
        simp
      have hflip : _cross b a r = -_cross a b r := by
        unfold _cross
        ring
      have hz2 : ([a, b] : List Point).zip [b, a] = [(a, b), (b, a)] := rfl
      rw [hz2] at he
      simp only [List.mem_cons, List.not_mem_nil, or_false] at he
      rcases he with rfl | rfl
      · show _cross a b r = 0
        linarith
      · show _cross b a r = 0
        linarith
  rcases A' with - | ⟨x, A''⟩
  · have hne : a ≠ b := by
      have hlt : lexLt a b :=
        head_lexLt_getLast (pairwise_lexLt_sortedUniq pts) hn ha hb
      exact fun hc => lexLt_irrefl b (hc ▸ hlt)
    refine ⟨a, b, hne, ?_⟩
    intro r hr
    refine hzero (a, b) ?_ r hr
    rw [hcand]
    show (a, b) ∈ (a :: b :: B').zip ((a :: b :: B').rotate 1)
    rw [List.rotate_cons_succ, List.rotate_zero]
    exact List.mem_cons_self _ _
  · have heqL : buildChain true 0 (sortedUniq pts) = [] ++ a :: x :: (A'' ++ [b]) := by
      rw [← hLrec, hA]
      simp
    have hlt : lexLt a x := pairwise_rel_of_append
      (buildChain_pairwise true 0 (pairwise_lexLt_sortedUniq pts)) heqL
    have hne : a ≠ x := fun hc => lexLt_irrefl x (hc ▸ hlt)
    refine ⟨a, x, hne, ?_⟩
    intro r hr
    refine hzero (a, x) ?_ r hr
    rw [hcand]
    have hCc : ((a :: x :: A'') ++ (b :: B') : List Point) =
        a :: x :: (A'' ++ b :: B') := by simp
    rw [hCc, List.rotate_cons_succ, List.rotate_zero]
    exact List.mem_cons_self _ _

end CandidateStructure


section Claim3

theorem candidateHull_length_two (ic : Bool) (pts : List Point)
    (hn : 2 ≤ (sortedUniq pts).length) :
    2 ≤ (candidateHull ic 0 (sortedUniq pts)).length := by
  obtain ⟨a, A', b, B', hA, hB, -, -, -, -⟩ := candidate_decomp ic pts hn
  unfold candidateHull
  rw [hA, hB]
  simp only [List.length_append, List.length_cons]
  omega

/-- Claim C3, amended: with an exact tolerance (`eps = 0`), in both modes no
output point of `convex_hull` lies strictly inside the exact corners-only
hull polygon. -/
theorem claim3_amended (pts : List Point) (ic : Bool) :
    ∀ q ∈ convex_hull pts ic 0, strictlyInside (convex_hull pts false 0) q = false := by
  intro q hq
  by_contra hT
  simp only [Bool.not_eq_false] at hT
  have hptsne : pts ≠ [] := by
    intro h0
    rw [h0] at hq
    have hnil : convex_hull [] ic 0 = [] := rfl
    rw [hnil] at hq
    exact absurd hq (List.not_mem_nil q)
  have hune : sortedUniq pts ≠ [] := sortedUniq_ne_nil hptsne
  by_cases h1 : (sortedUniq pts).length ≤ 1
  · obtain ⟨u, t, hu⟩ := List.exists_cons_of_ne_nil hune
    have ht : t = [] := by
      rw [hu] at h1
      simp only [List.length_cons] at h1
      exact List.length_eq_zero.mp (by omega)
    subst ht
    have hH0 : convex_hull pts false 0 = [u] := by
      rw [convex_hull_def, if_pos h1, hu]
    rw [hH0, strictlyInside_singleton] at hT
    exact Bool.false_ne_true hT
  · push_neg at h1
    have hn2 : 2 ≤ (sortedUniq pts).length := h1
    have hH0 : convex_hull pts false 0 = candidateHull false 0 (sortedUniq pts) := by
      rw [convex_hull_def, if_neg (by omega), if_neg (by simp),
        if_neg (fun h0 => candidateHull_ne_nil false 0 hn2 (List.length_eq_zero.mp h0))]
    rw [hH0] at hT
    have hH0ne : candidateHull false 0 (sortedUniq pts) ≠ [] :=
      candidateHull_ne_nil false 0 hn2
    have hstrict : ∀ e ∈ (candidateHull false 0 (sortedUniq pts)).zip
        ((candidateHull false 0 (sortedUniq pts)).rotate 1), 0 < _cross e.1 e.2 q := by
      intro e he
      unfold strictlyInside at hT
      rw [List.all_eq_true] at hT
      have h2 := hT e he
      simpa using h2
    rw [convex_hull_def, if_neg (by omega)] at hq
    by_cases harea : ic = true ∧
        ratAbs (_polygon_area2 (candidateHull ic 0 (sortedUniq pts))) ≤ 0
    · rw [if_pos harea] at hq
      have h0 : _polygon_area2 (candidateHull true 0 (sortedUniq pts)) = 0 := by
        have h2 := harea.2
        rw [harea.1] at h2
        exact ratAbs_nonpos h2
      obtain ⟨e1, e2, hne12, hline⟩ := collinear_of_true_area_zero pts hn2 h0
      have hl2 : 2 ≤ (candidateHull false 0 (sortedUniq pts)).length :=
        candidateHull_length_two false pts hn2
      obtain ⟨c1, c2, rest, hC⟩ : ∃ c1 c2 rest,
          candidateHull false 0 (sortedUniq pts) = c1 :: c2 :: rest := by
        rcases hC : candidateHull false 0 (sortedUniq pts) with - | ⟨c1, t1⟩
        · rw [hC] at hl2
          simp at hl2
        · rcases t1 with - | ⟨c2, rest⟩
          · rw [hC] at hl2
            simp at hl2
          · exact ⟨c1, c2, rest, rfl⟩
      have hfirst : (c1, c2) ∈ (candidateHull false 0 (sortedUniq pts)).zip
          ((candidateHull false 0 (sortedUniq pts)).rotate 1) := by
        rw [hC, List.rotate_cons_succ, List.rotate_zero]
        exact List.mem_cons_self _ _
      have hpos := hstrict (c1, c2) hfirst
      have hc1u : c1 ∈ sortedUniq pts :=
        candidateHull_subset false 0 _ c1 (by rw [hC]; simp)
      have hc2u : c2 ∈ sortedUniq pts :=
        candidateHull_subset false 0 _ c2 (by rw [hC]; simp)
      have hzero : _cross c1 c2 q =
          0 := three_on_line hne12 (hline c1 hc1u) (hline c2 hc2u) (hline q hq)
      rw [hzero] at hpos
      exact absurd hpos (lt_irrefl 0)
    · rw [if_neg harea] at hq
      rw [if_neg (fun h0 =>
        candidateHull_ne_nil ic 0 hn2 (List.length_eq_zero.mp h0))] at hq
      obtain ⟨y, hqy, hedge⟩ := edge_of_mem_candidate ic pts hq
      refine winding hH0ne hqy hstrict ?_
      intro x hx
      exact hedge x (candidateHull_subset false 0 _ x hx)

theorem claim3_witness :
    strictlyInside (convex_hull [((0 : ℚ), (0 : ℚ)), (2, 1)] false 0)
      ((0 : ℚ), (0 : ℚ)) = false := by
  refine claim3_amended [((0 : ℚ), (0 : ℚ)), (2, 1)] true ((0 : ℚ), (0 : ℚ)) ?_
  have hu : sortedUniq [((0 : ℚ), (0 : ℚ)), (2, 1)] = [((0 : ℚ), (0 : ℚ)), (2, 1)] :=
    sortedUniq_of_sorted (by norm_num [List.pairwise_cons, lexLt])
  have hc : candidateHull true 0 [((0 : ℚ), (0 : ℚ)), (2, 1)] =
      [((0 : ℚ), (0 : ℚ)), (2, 1)] := by
    norm_num [candidateHull, buildChain, chainRev, List.foldl, chainStep, popWhile,
      popTest, _cross]
  have heq : convex_hull [((0 : ℚ), (0 : ℚ)), (2, 1)] true 0 =
      [((0 : ℚ), (0 : ℚ)), (2, 1)] := by
    rw [convex_hull_def, hu, hc]
    rw [if_neg (by norm_num)]
    rw [if_pos ⟨rfl, by norm_num [_polygon_area2, ratAbs]⟩]
  rw [heq]
  norm_num

end Claim3


section Pinch

theorem pinch_max {c M d : Point} {S : List Point}
    (hcM : lexLt c M) (hdM : lexLt d M)
    (h1 : ∀ r ∈ S, 0 ≤ _cross c M r) (h2 : ∀ r ∈ S, 0 ≤ _cross M d r)
    (hz : _cross c M d = 0) : ∀ r ∈ S, _cross c M r = 0 := by
  intro r hr
  have hx := cross_transfer_x c M M d r
  have hy := cross_transfer_y c M M d r
  rw [cross_degen_right, hz] at hx hy
  simp only [mul_zero, add_zero, zero_add] at hx hy
  have hs1 : 0 ≤ _cross c M r := h1 r hr
  have hs2 : 0 ≤ _cross M d r := h2 r hr
  have hcx : c.1 ≤ M.1 := lexLt_x_le hcM
  have hdx : d.1 ≤ M.1 := lexLt_x_le hdM
  rcases lt_or_eq_of_le hdx with hlt | heq
  · have hle : (d.1 - M.1) * _cross c M r ≤ 0 :=
      mul_nonpos_of_nonpos_of_nonneg (by linarith) hs1
    have hge : 0 ≤ (M.1 - c.1) * _cross M d r := mul_nonneg (by linarith) hs2
    have heq0 : (d.1 - M.1) * _cross c M r = 0 := by linarith [hx]
    rcases mul_eq_zero.mp heq0 with h4 | h4
    · exfalso
      linarith
    · exact h4
  · obtain ⟨-, hdy⟩ := lexLt_tie hdM (le_of_eq heq.symm)
    rcases lt_or_eq_of_le hcx with hclt | hceq
    · exfalso
      have hxc := cross_transfer_x c M M d c
      rw [cross_degen_right, cross_degen_left, hz] at hxc
      simp only [mul_zero, add_zero, zero_add] at hxc
      have hMdc : _cross M d c = 0 := by
        rcases mul_eq_zero.mp hxc with h4 | h4
        · exfalso
          linarith
        · exact h4
      have hval : _cross M d c = (M.2 - d.2) * (c.1 - M.1) := by
        unfold _cross
        rw [heq]
        ring
      rw [hval] at hMdc
      nlinarith [mul_pos (show (0 : ℚ) < M.2 - d.2 by linarith)
        (show (0 : ℚ) < M.1 - c.1 by linarith)]
    · obtain ⟨-, hcy⟩ := lexLt_tie hcM (le_of_eq hceq.symm)
      have hle : (d.2 - M.2) * _cross c M r ≤ 0 :=
        mul_nonpos_of_nonpos_of_nonneg (by linarith) hs1
      have hge : 0 ≤ (M.2 - c.2) * _cross M d r := mul_nonneg (by linarith) hs2
      have heq0 : (d.2 - M.2) * _cross c M r = 0 := by linarith [hy]
      rcases mul_eq_zero.mp heq0 with h4 | h4
      · exfalso
        linarith
      · exact h4

theorem pinch_min {u m v : Point} {S : List Point}
    (hmu : lexLt m u) (hmv : lexLt m v)
    (h1 : ∀ r ∈ S, 0 ≤ _cross u m r) (h2 : ∀ r ∈ S, 0 ≤ _cross m v r)
    (hz : _cross u m v = 0) : ∀ r ∈ S, _cross m v r = 0 := by
  intro r hr
  have hx := cross_transfer_x u m m v r
  have hy := cross_transfer_y u m m v r
  rw [cross_degen_right, hz] at hx hy
  simp only [mul_zero, add_zero, zero_add] at hx hy
  have hs1 : 0 ≤ _cross u m r := h1 r hr
  have hs2 : 0 ≤ _cross m v r := h2 r hr
  have hmux : m.1 ≤ u.1 := lexLt_x_le hmu
  have hmvx : m.1 ≤ v.1 := lexLt_x_le hmv
  rcases lt_or_eq_of_le hmux with hlt | heq
  · have hle : (m.1 - u.1) * _cross m v r ≤ 0 :=
      mul_nonpos_of_nonpos_of_nonneg (by linarith) hs2
    have hge : 0 ≤ (v.1 - m.1) * _cross u m r := mul_nonneg (by linarith) hs1
    have heq0 : (m.1 - u.1) * _cross m v r = 0 := by linarith [hx]
    rcases mul_eq_zero.mp heq0 with h4 | h4
    · exfalso
      linarith
    · exact h4
  · obtain ⟨-, huy⟩ := lexLt_tie hmu (le_of_eq heq.symm)
    rcases lt_or_eq_of_le hmvx with hvlt | hveq
    · exfalso
      have hval : _cross u m v = (u.2 - m.2) * (v.1 - m.1) := by
        unfold _cross
        rw [← heq]
        ring
      rw [hval] at hz
      nlinarith [mul_pos (show (0 : ℚ) < u.2 - m.2 by linarith)
        (show (0 : ℚ) < v.1 - m.1 by linarith)]
    · obtain ⟨-, hvy⟩ := lexLt_tie hmv (le_of_eq hveq.symm)
      have hle : (m.2 - u.2) * _cross m v r ≤ 0 :=
        mul_nonpos_of_nonpos_of_nonneg (by linarith) hs2
      have hge : 0 ≤ (v.2 - m.2) * _cross u m r := mul_nonneg (by linarith) hs1
      have heq0 : (m.2 - u.2) * _cross m v r = 0 := by linarith [hy]
      rcases mul_eq_zero.mp heq0 with h4 | h4
      · exfalso
        linarith
      · exact h4

end Pinch

section InfixTriples

theorem infix_triple_append {x y z : Point} :
    ∀ {A B : List Point}, List.IsInfix [x, y, z] (A ++ B) →
      List.IsInfix [x, y, z] A ∨ List.IsInfix [x, y, z] B ∨
      (∃ A₁, A = A₁ ++ [x, y] ∧ B.head? = some z) ∨
      (∃ A₁ B₁, A = A₁ ++ [x] ∧ B = y :: z :: B₁) := by
  intro A
  induction A with
  | nil =>
    intro B h
    right
    left
    simpa using h
  | cons a A' ih =>
    intro B h
    rcases List.infix_cons_iff.mp h with hpre | hinf
    · rw [List.cons_prefix_cons] at hpre
      obtain ⟨hax, hyz⟩ := hpre
      subst hax
      cases A' with
      | nil =>
        obtain ⟨B₁, hB⟩ := hyz
        right; right; right
        refine ⟨[], B₁, rfl, ?_⟩
        simp at hB
        exact hB.symm
      | cons a₂ A'' =>
        obtain ⟨hya, hzz⟩ := List.cons_prefix_cons.mp
          (show [y, z] <+: a₂ :: (A'' ++ B) from hyz)
        subst hya
        cases A'' with
        | nil =>
          obtain ⟨B₁, hB⟩ := hzz
          right; right; left
          refine ⟨[], rfl, ?_⟩
          rcases B with - | ⟨b₀, B₂⟩
          · simp at hB
          · have hzb : z = b₀ := by
              simp at hB
              exact hB.1
            rw [hzb]
            rfl
        | cons a₃ A₃ =>
          obtain ⟨hza, -⟩ := List.cons_prefix_cons.mp
            (show [z] <+: a₃ :: (A₃ ++ B) from hzz)
          subst hza
          left
          exact ⟨[], A₃, rfl⟩
    · rcases ih hinf with h1 | h1 | h1 | h1
      · left
        exact List.infix_cons h1
      · right; left
        exact h1
      · right; right; left
        obtain ⟨A₁, hA₁, hh⟩ := h1
        exact ⟨a :: A₁, by rw [hA₁]; rfl, hh⟩
      · right; right; right
        obtain ⟨A₁, B₁, hA₁, hB₁⟩ := h1
        exact ⟨a :: A₁, B₁, by rw [hA₁]; rfl, hB₁⟩

end InfixTriples


section Claim2Support

theorem cyc_pairs_decomp (ic : Bool) (pts : List Point)
    (hn : 2 ≤ (sortedUniq pts).length) :
    (candidateHull ic 0 (sortedUniq pts)).zip
        ((candidateHull ic 0 (sortedUniq pts)).rotate 1) =
      (buildChain ic 0 (sortedUniq pts)).zip (buildChain ic 0 (sortedUniq pts)).tail ++
      (buildChain ic 0 (sortedUniq pts).reverse).zip
        (buildChain ic 0 (sortedUniq pts).reverse).tail := by
  obtain ⟨a, A', b, B', hA, hB, ha, hb, hLrec, hUrec⟩ := candidate_decomp ic pts hn
  have hcand : candidateHull ic 0 (sortedUniq pts) = (a :: A') ++ (b :: B') := by
    unfold candidateHull
    rw [hA, hB]
  rw [hcand, cyc_zip_eq]
  have h4 : (a :: A').zip (A' ++ [b]) =
      ((a :: A') ++ [b]).zip (((a :: A') ++ [b]).tail) :=
    zip_concat_pairs b (by simp)
  have h5 : (b :: B').zip (B' ++ [a]) =
      ((b :: B') ++ [a]).zip (((b :: B') ++ [a]).tail) :=
    zip_concat_pairs a (by simp)
  rw [h4, h5, ← hA, ← hB, hLrec, hUrec]

theorem collinear_of_short_hull (pts : List Point)
    (hn : 2 ≤ (sortedUniq pts).length)
    (hshort : ¬ 3 ≤ (candidateHull false 0 (sortedUniq pts)).length) :
    OnCommonLine pts := by
  obtain ⟨a, A', b, B', hA, hB, ha, hb, hLrec, hUrec⟩ := candidate_decomp false pts hn
  have hcand : candidateHull false 0 (sortedUniq pts) = (a :: A') ++ (b :: B') := by
    unfold candidateHull
    rw [hA, hB]
  have hA0 : A' = [] := by
    refine List.length_eq_zero.mp ?_
    rw [hcand] at hshort
    simp only [List.length_append, List.length_cons] at hshort
    omega
  have hB0 : B' = [] := by
    refine List.length_eq_zero.mp ?_
    rw [hcand] at hshort
    simp only [List.length_append, List.length_cons] at hshort
    omega
  subst hA0
  subst hB0
  have hLshape : buildChain false 0 (sortedUniq pts) = [] ++ a :: b :: [] := by
    rw [← hLrec, hA]
    rfl
  have hUshape : buildChain false 0 (sortedUniq pts).reverse = [] ++ b :: a :: [] := by
    rw [← hUrec, hB]
    rfl
  have hab : a ≠ b := by
    have hlt : lexLt a b :=
      head_lexLt_getLast (pairwise_lexLt_sortedUniq pts) hn ha hb
    exact fun hc => lexLt_irrefl b (hc ▸ hlt)
  refine onCommonLine_of_base hab ?_
  intro r hr
  have hru : r ∈ sortedUniq pts := mem_sortedUniq.mpr hr
  have h1 : 0 ≤ _cross a b r :=
    chain'_pair_of_append (a5_lower false (pairwise_lexLt_sortedUniq pts) r hru) hLshape
  have h2 : 0 ≤ _cross b a r :=
    chain'_pair_of_append (a5_upper false (by
      rw [List.pairwise_reverse]
      exact pairwise_lexLt_sortedUniq pts) r (by simpa using hru)) hUshape
  have hflip : _cross b a r = -_cross a b r := by
    unfold _cross
    ring
  linarith

theorem concat_eq_concat {l₁ l₂ : List Point} {u v : Point}
    (h : l₁ ++ [u] = l₂ ++ [v]) : l₁ = l₂ ∧ u = v := by
  constructor
  · have h2 := congrArg List.dropLast h
    simpa using h2
  · have h2 := congrArg List.getLast? h
    simp only [List.getLast?_concat] at h2
    exact Option.some.inj h2

end Claim2Support


section Claim2Area

theorem area2_pos_noncollinear (pts : List Point)
    (h3 : 3 ≤ (sortedUniq pts).length) (hnc : ¬ OnCommonLine pts) :
    0 < _polygon_area2 (candidateHull false 0 (sortedUniq pts)) := by
  have hn2 : 2 ≤ (sortedUniq pts).length := by omega
  have hlen3 : 3 ≤ (candidateHull false 0 (sortedUniq pts)).length := by
    by_contra hs
    exact hnc (collinear_of_short_hull pts hn2 hs)
  obtain ⟨a, A', b, B', hA, hB, ha, hb, hLrec, hUrec⟩ := candidate_decomp false pts hn2
  have hcand : candidateHull false 0 (sortedUniq pts) = (a :: A') ++ (b :: B') := by
    unfold candidateHull
    rw [hA, hB]
  have hau : a ∈ sortedUniq pts := List.mem_of_mem_head? ha
  have hsum := cyc_cross_sum a (candidateHull false 0 (sortedUniq pts)) hlen3
  rw [← hsum]
  refine sum_pos_of_nonneg_of_mem _ ?_ ?_
  · intro t ht
    obtain ⟨e, he, rfl⟩ := List.mem_map.mp ht
    rw [cross_cyclic]
    exact a5_candidate false pts hn2 a hau e he
  · have hLshape : buildChain false 0 (sortedUniq pts) = (a :: A') ++ [b] := by
      rw [← hLrec, hA]
    have hUshape : buildChain false 0 (sortedUniq pts).reverse = (b :: B') ++ [a] := by
      rw [← hUrec, hB]
    have hrpw : ((sortedUniq pts).reverse).Pairwise (fun u v => lexLt v u) := by
      rw [List.pairwise_reverse]
      exact pairwise_lexLt_sortedUniq pts
    rcases A' with - | ⟨x1, A''⟩
    · obtain ⟨z₀, B'', hBz⟩ : ∃ z₀ B'', B' = z₀ :: B'' := by
        rcases B' with - | ⟨z₀, B''⟩
        · exfalso
          rw [hcand] at hlen3
          simp at hlen3
        · exact ⟨z₀, B'', rfl⟩
      subst hBz
      refine ⟨_cross a b z₀, ?_, ?_⟩
      · refine List.mem_map.mpr ⟨(b, z₀), ?_, rfl⟩
        rw [cyc_pairs_decomp false pts hn2]
        refine List.mem_append.mpr (Or.inr ?_)
        have hU2 : buildChain false 0 (sortedUniq pts).reverse
            = b :: z₀ :: (B'' ++ [a]) := hUshape
        rw [hU2]
        simp
      · have hsub : List.Sublist [b, z₀, a]
            (buildChain false 0 (sortedUniq pts).reverse) := by
          rw [hUshape]
          show List.Sublist [b, z₀, a] (b :: z₀ :: (B'' ++ [a]))
          exact List.Sublist.cons₂ b (List.Sublist.cons₂ z₀
            (List.suffix_append B'' [a]).sublist)
        have hpos := ordered_triple_desc (le_refl 0) hrpw hsub
        rw [cross_cyclic]
        exact hpos
    · have hn₀ : ∃ n₀ rest₀, A'' ++ [b] = n₀ :: rest₀ := by
        rcases A'' with - | ⟨c, t⟩
        · exact ⟨b, [], rfl⟩
        · exact ⟨c, t ++ [b], rfl⟩
      obtain ⟨n₀, rest₀, hn₀⟩ := hn₀
      have hL2 : buildChain false 0 (sortedUniq pts) = a :: x1 :: n₀ :: rest₀ := by
        rw [hLshape]
        show a :: x1 :: (A'' ++ [b]) = a :: x1 :: n₀ :: rest₀
        rw [hn₀]
      refine ⟨_cross a x1 n₀, ?_, ?_⟩
      · refine List.mem_map.mpr ⟨(x1, n₀), ?_, rfl⟩
        rw [cyc_pairs_decomp false pts hn2]
        refine List.mem_append.mpr (Or.inl ?_)
        rw [hL2]
        show (x1, n₀) ∈ (a, x1) :: (x1, n₀) :: (n₀ :: rest₀).zip rest₀
        exact List.mem_cons_of_mem _ (List.mem_cons_self _ _)
      · have hsub : List.Sublist [a, x1, n₀] (buildChain false 0 (sortedUniq pts)) := by
          rw [hL2]
          exact List.Sublist.cons₂ a (List.Sublist.cons₂ x1
            (List.Sublist.cons₂ n₀ (List.nil_sublist rest₀)))
        exact ordered_triple_asc (le_refl 0) (pairwise_lexLt_sortedUniq pts) hsub

end Claim2Area


section Claim2Triples

theorem strict_triples_noncollinear (pts : List Point)
    (h3 : 3 ≤ (sortedUniq pts).length) (hnc : ¬ OnCommonLine pts) :
    ∀ x y z : Point, List.IsInfix [x, y, z]
      (candidateHull false 0 (sortedUniq pts) ++
        (candidateHull false 0 (sortedUniq pts)).take 2) →
    0 < _cross x y z := by
  have hn2 : 2 ≤ (sortedUniq pts).length := by omega
  obtain ⟨a, A', b, B', hA, hB, ha, hb, hLrec, hUrec⟩ := candidate_decomp false pts hn2
  have hcand : candidateHull false 0 (sortedUniq pts) = (a :: A') ++ (b :: B') := by
    unfold candidateHull
    rw [hA, hB]
  have hLshape : buildChain false 0 (sortedUniq pts) = (a :: A') ++ [b] := by
    rw [← hLrec, hA]
  have hUshape : buildChain false 0 (sortedUniq pts).reverse = (b :: B') ++ [a] := by
    rw [← hUrec, hB]
  have hLpw : (buildChain false 0 (sortedUniq pts)).Pairwise lexLt :=
    buildChain_pairwise false 0 (pairwise_lexLt_sortedUniq pts)
  have hrpw : ((sortedUniq pts).reverse).Pairwise (fun u v => lexLt v u) := by
    rw [List.pairwise_reverse]
    exact pairwise_lexLt_sortedUniq pts
  have hUpw : (buildChain false 0 (sortedUniq pts).reverse).Pairwise
      (fun u v => lexLt v u) :=
    hrpw.sublist (buildChain_sublist false 0 _)
  have hmemL : ∀ p ∈ buildChain false 0 (sortedUniq pts), p ∈ sortedUniq pts :=
    fun p hp => (buildChain_sublist false 0 _).subset hp
  have hmemU : ∀ p ∈ buildChain false 0 (sortedUniq pts).reverse, p ∈ sortedUniq pts :=
    fun p hp => List.mem_reverse.mp ((buildChain_sublist false 0 _).subset hp)
  have hab : lexLt a b := head_lexLt_getLast (pairwise_lexLt_sortedUniq pts) hn2 ha hb
  have hline : ∀ u v : Point, u ≠ v →
      (∀ r ∈ sortedUniq pts, _cross u v r = 0) → False := by
    intro u v huv hall
    exact hnc (onCommonLine_of_base huv (fun r hr => hall r (mem_sortedUniq.mpr hr)))
  have hA5L : ∀ r ∈ sortedUniq pts, List.Chain' (fun u v => 0 ≤ _cross u v r)
      (buildChain false 0 (sortedUniq pts)) :=
    fun r hr => a5_lower false (pairwise_lexLt_sortedUniq pts) r hr
  have hA5U : ∀ r ∈ sortedUniq pts, List.Chain' (fun u v => 0 ≤ _cross u v r)
      (buildChain false 0 (sortedUniq pts).reverse) :=
    fun r hr => a5_upper false hrpw r (List.mem_reverse.mpr hr)
  obtain ⟨l1, L2, hL12, htake⟩ : ∃ l1 L2,
      buildChain false 0 (sortedUniq pts) = a :: l1 :: L2 ∧
      (candidateHull false 0 (sortedUniq pts)).take 2 = [a, l1] := by
    rcases A' with - | ⟨x1, A''⟩
    · refine ⟨b, [], ?_, ?_⟩
      · rw [hLshape]
        rfl
      · rw [hcand]
        rfl
    · refine ⟨x1, A'' ++ [b], ?_, ?_⟩
      · rw [hLshape]
        rfl
      · rw [hcand]
        rfl
  intro x y z hinf
  rcases infix_triple_append hinf with hH' | hT2 | hw1 | hw2
  · rw [hcand] at hH'
    rcases infix_triple_append hH' with hLd | hUd | hj1 | hj2
    · have hsub : List.Sublist [x, y, z] (buildChain false 0 (sortedUniq pts)) := by
        rw [hLshape]
        exact hLd.sublist.trans (List.sublist_append_left _ _)
      exact ordered_triple_asc (le_refl 0) (pairwise_lexLt_sortedUniq pts) hsub
    · have hsub : List.Sublist [x, y, z]
          (buildChain false 0 (sortedUniq pts).reverse) := by
        rw [hUshape]
        exact hUd.sublist.trans (List.sublist_append_left _ _)
      exact ordered_triple_desc (le_refl 0) hrpw hsub
    · obtain ⟨A₁, hA₁, hz⟩ := hj1
      have hzb : z = b := by
        simp only [List.head?_cons] at hz
        exact (Option.some.inj hz).symm
      rw [hzb]
      have hsub : List.Sublist [x, y, b] (buildChain false 0 (sortedUniq pts)) := by
        rw [hLshape, hA₁, List.append_assoc]
        exact (List.suffix_append A₁ ([x, y] ++ [b])).sublist
      exact ordered_triple_asc (le_refl 0) (pairwise_lexLt_sortedUniq pts) hsub
    · obtain ⟨A₁, B₁, hA₁, hB₁⟩ := hj2
      have hyb : y = b := ((List.cons_eq_cons.mp hB₁).1).symm
      have hB'e : B' = z :: B₁ := (List.cons_eq_cons.mp hB₁).2
      rw [hyb]
      have hLsh2 : buildChain false 0 (sortedUniq pts) = A₁ ++ x :: b :: [] := by
        rw [hLshape, hA₁, List.append_assoc]
        rfl
      have hUsh2 : buildChain false 0 (sortedUniq pts).reverse
          = [] ++ b :: z :: (B₁ ++ [a]) := by
        rw [hUshape, hB'e]
        rfl
      have hxb : lexLt x b := pairwise_rel_of_append hLpw hLsh2
      have hzlb : lexLt z b :=
        pairwise_rel_of_append (R := fun u v => lexLt v u) hUpw hUsh2
      have h1 : ∀ r ∈ sortedUniq pts, 0 ≤ _cross x b r :=
        fun r hr => chain'_pair_of_append (hA5L r hr) hLsh2
      have h2 : ∀ r ∈ sortedUniq pts, 0 ≤ _cross b z r :=
        fun r hr => chain'_pair_of_append (hA5U r hr) hUsh2
      have hzu : z ∈ sortedUniq pts := by
        refine hmemU z ?_
        rw [hUsh2]
        simp
      by_contra h0
      push_neg at h0
      have hz0 : _cross x b z = 0 := le_antisymm h0 (h1 z hzu)
      have hxbne : x ≠ b := fun hc => lexLt_irrefl b (hc ▸ hxb)
      exact hline x b hxbne (pinch_max hxb hzlb h1 h2 hz0)
  · exfalso
    have hlen := hT2.sublist.length_le
    rw [htake] at hlen
    simp at hlen
  · obtain ⟨A₁, hA₁, hz⟩ := hw1
    have hza : z = a := by
      rw [htake] at hz
      simp only [List.head?_cons] at hz
      exact (Option.some.inj hz).symm
    rw [hza]
    rcases List.eq_nil_or_concat B' with hB'nil | ⟨B₂, w, hB''⟩
    · subst hB'nil
      have heq : (a :: A') ++ [b] = (A₁ ++ [x]) ++ [y] := by
        rw [← hcand, hA₁, List.append_assoc]
        rfl
      obtain ⟨h1e, h2e⟩ := concat_eq_concat heq
      rw [← h2e]
      have hLsh2 : buildChain false 0 (sortedUniq pts) = A₁ ++ x :: b :: [] := by
        rw [hLshape, h1e, List.append_assoc]
        rfl
      have hUsh2 : buildChain false 0 (sortedUniq pts).reverse
          = [] ++ b :: a :: [] := by
        rw [hUshape]
        rfl
      have hxb : lexLt x b := pairwise_rel_of_append hLpw hLsh2
      have h1 : ∀ r ∈ sortedUniq pts, 0 ≤ _cross x b r :=
        fun r hr => chain'_pair_of_append (hA5L r hr) hLsh2
      have h2 : ∀ r ∈ sortedUniq pts, 0 ≤ _cross b a r :=
        fun r hr => chain'_pair_of_append (hA5U r hr) hUsh2
      have hau : a ∈ sortedUniq pts := List.mem_of_mem_head? ha
      by_contra h0
      push_neg at h0
      have hz0 : _cross x b a = 0 := le_antisymm h0 (h1 a hau)
      have hxbne : x ≠ b := fun hc => lexLt_irrefl b (hc ▸ hxb)
      exact hline x b hxbne (pinch_max hxb hab h1 h2 hz0)
    · rw [List.concat_eq_append] at hB''
      have heq : ((a :: A') ++ (b :: B₂)) ++ [w] = (A₁ ++ [x]) ++ [y] := by
        calc ((a :: A') ++ (b :: B₂)) ++ [w]
            = (a :: A') ++ ((b :: B₂) ++ [w]) := List.append_assoc _ _ _
          _ = (a :: A') ++ (b :: B') := by
              rw [hB'']
              rfl
          _ = candidateHull false 0 (sortedUniq pts) := hcand.symm
          _ = A₁ ++ [x, y] := hA₁
          _ = (A₁ ++ [x]) ++ [y] := (List.append_assoc A₁ [x] [y]).symm
      obtain ⟨h1e, h2e⟩ := concat_eq_concat heq
      rw [← h2e]
      rcases List.eq_nil_or_concat (b :: B₂) with hc0 | ⟨C₁, x', hC⟩
      · exact absurd hc0 (List.cons_ne_nil _ _)
      · rw [List.concat_eq_append] at hC
        have heq2 : ((a :: A') ++ C₁) ++ [x'] = A₁ ++ [x] := by
          rw [List.append_assoc, ← hC]
          exact h1e
        rw [(concat_eq_concat heq2).2] at hC
        have hUsh2 : buildChain false 0 (sortedUniq pts).reverse
            = C₁ ++ [x, w, a] := by
          rw [hUshape, hB'']
          have hstep : b :: (B₂ ++ [w]) = (b :: B₂) ++ [w] := rfl
          rw [hstep, hC, List.append_assoc, List.append_assoc]
          rfl
        have hsub : List.Sublist [x, w, a]
            (buildChain false 0 (sortedUniq pts).reverse) := by
          rw [hUsh2]
          exact (List.suffix_append C₁ [x, w, a]).sublist
        exact ordered_triple_desc (le_refl 0) hrpw hsub
  · obtain ⟨A₁, B₁, hA₁, hB₁⟩ := hw2
    rw [htake] at hB₁
    have hya : y = a := ((List.cons_eq_cons.mp hB₁).1).symm
    have h5e := (List.cons_eq_cons.mp hB₁).2
    have hzl : z = l1 := ((List.cons_eq_cons.mp h5e).1).symm
    rw [hya, hzl]
    have hxlast : ∃ C₁, b :: B' = C₁ ++ [x] := by
      have heq : (a :: A') ++ (b :: B') = A₁ ++ [x] := by rw [← hcand, hA₁]
      rcases List.eq_nil_or_concat (b :: B') with hc0 | ⟨C₁, x', hC⟩
      · exact absurd hc0 (List.cons_ne_nil _ _)
      · rw [List.concat_eq_append] at hC
        refine ⟨C₁, ?_⟩
        have heq2 : ((a :: A') ++ C₁) ++ [x'] = A₁ ++ [x] := by
          rw [List.append_assoc, ← hC]
          exact heq
        rw [hC, (concat_eq_concat heq2).2]
    obtain ⟨C₁, hC⟩ := hxlast
    have hUsh2 : buildChain false 0 (sortedUniq pts).reverse
        = C₁ ++ x :: a :: [] := by
      rw [hUshape, hC, List.append_assoc]
      rfl
    have hLsh2 : buildChain false 0 (sortedUniq pts) = [] ++ a :: l1 :: L2 := by
      rw [hL12]
      rfl
    have hax : lexLt a x :=
      pairwise_rel_of_append (R := fun u v => lexLt v u) hUpw hUsh2
    have hal : lexLt a l1 := pairwise_rel_of_append hLpw hLsh2
    have h1 : ∀ r ∈ sortedUniq pts, 0 ≤ _cross x a r :=
      fun r hr => chain'_pair_of_append (hA5U r hr) hUsh2
    have h2 : ∀ r ∈ sortedUniq pts, 0 ≤ _cross a l1 r :=
      fun r hr => chain'_pair_of_append (hA5L r hr) hLsh2
    have hl1u : l1 ∈ sortedUniq pts := by
      refine hmemL l1 ?_
      rw [hL12]
      simp
    by_contra h0
    push_neg at h0
    have hz0 : _cross x a l1 = 0 := le_antisymm h0 (h1 l1 hl1u)
    have halne : a ≠ l1 := fun hc => lexLt_irrefl l1 (hc ▸ hal)
    exact hline a l1 halne (pinch_min hax hal h1 h2 hz0)

end Claim2Triples


section Claim2

/-- Claim C2 (amended): with the exact tolerance `eps = 0`, for an input
having at least three distinct points that do not all lie on one common
line, the corners-only hull (`include_collinear = false`) is strictly
convex: its doubled shoelace area is strictly positive and every three
cyclically consecutive output vertices make a strict counterclockwise
turn. At the default tolerance `1e-12` the original claim fails
(`claim2_counterexample`): a near-collinear middle point is popped and the
remaining output polygon is degenerate, with zero area. -/
theorem claim2_amended (pts : List Point) (h3 : 3 ≤ (sortedUniq pts).length)
    (hnc : ¬ OnCommonLine pts) :
    0 < _polygon_area2 (convex_hull pts false 0) ∧
      ∀ x y z : Point, List.IsInfix [x, y, z]
        (convex_hull pts false 0 ++ (convex_hull pts false 0).take 2) →
      0 < _cross x y z := by
  have hn2 : 2 ≤ (sortedUniq pts).length := by omega
  have hH : convex_hull pts false 0 = candidateHull false 0 (sortedUniq pts) := by
    rw [convex_hull_def]
    rw [if_neg (by omega)]
    rw [if_neg (by simp)]
    rw [if_neg (fun h0 => candidateHull_ne_nil false 0 hn2 (List.length_eq_zero.mp h0))]
  rw [hH]
  exact ⟨area2_pos_noncollinear pts h3 hnc, strict_triples_noncollinear pts h3 hnc⟩

theorem claim2_witness :
    (3 ≤ (sortedUniq [((0 : ℚ), (0 : ℚ)), (1, 1), (2, 0)]).length ∧
      ¬ OnCommonLine [((0 : ℚ), (0 : ℚ)), (1, 1), (2, 0)]) ∧
    (0 < _polygon_area2 (convex_hull [((0 : ℚ), (0 : ℚ)), (1, 1), (2, 0)] false 0) ∧
      ∀ x y z : Point, List.IsInfix [x, y, z]
        (convex_hull [((0 : ℚ), (0 : ℚ)), (1, 1), (2, 0)] false 0 ++
          (convex_hull [((0 : ℚ), (0 : ℚ)), (1, 1), (2, 0)] false 0).take 2) →
      0 < _cross x y z) := by
  have hu : sortedUniq [((0 : ℚ), (0 : ℚ)), (1, 1), (2, 0)] =
      [((0 : ℚ), (0 : ℚ)), (1, 1), (2, 0)] :=
    sortedUniq_of_sorted (by norm_num [List.pairwise_cons, lexLt])
  have h3 : 3 ≤ (sortedUniq [((0 : ℚ), (0 : ℚ)), (1, 1), (2, 0)]).length := by
    rw [hu]
    norm_num
  have hnc : ¬ OnCommonLine [((0 : ℚ), (0 : ℚ)), (1, 1), (2, 0)] := by
    rintro ⟨P, D, h⟩
    obtain ⟨t1, ht1⟩ := h ((0 : ℚ), (0 : ℚ)) (by norm_num)
    obtain ⟨t2, ht2⟩ := h ((1 : ℚ), (1 : ℚ)) (by norm_num)
    obtain ⟨t3, ht3⟩ := h ((2 : ℚ), (0 : ℚ)) (by norm_num)
    have hc := cross_of_line ht1 ht2 ht3
    norm_num [_cross] at hc
  exact ⟨⟨h3, hnc⟩, claim2_amended [((0 : ℚ), (0 : ℚ)), (1, 1), (2, 0)] h3 hnc⟩

end Claim2

end CH
